import Mathlib

set_option autoImplicit false

/-!
# Verification of the `otomat` automata library

Shallow embedding of the core of the repository: the `Automaton` value type and
its `Validator` (src/models/automaton.ts, src/utils/validator.ts), the
`SimulationEngine` (src/simulationEngine.ts) and the subset-construction
`NFAToDFAConverter` (src/NFAToDFAConverter.ts).

Modelling conventions:
* JavaScript `Set<string>` values are modelled as `List String` used up to
  membership; `new Set(list)` is modelled by `List.dedup` (same membership and
  the same count of distinct elements; only iteration order may differ, and
  every use of iteration order in the embedded code is order-insensitive).
* Exceptions are modelled with `Except Err`; the three error classes of
  src/errors are the three constructors of `Err`.  The interpolated parts of
  the error message strings are dropped.
* Worklist loops (`computeEpsilonClosure`, the subset-construction BFS) are
  modelled as well-founded recursions over the same loop state as the source;
  the JS array `push`/`pop` discipline only affects the traversal order of the
  worklist, never the resulting sets, so the worklist is kept as a head-first
  list.
-/

namespace Otomat

/-- The reserved epsilon marker (src/models/transition.ts, `EPSILON`). -/
def EPSILON : String := "ε"

/-- A transition `{from, input, to}` (src/models/transition.ts, class
`Transition`).  The field `from` is a Lean keyword, hence `from'`. -/
structure Transition where
  from' : String
  input : String
  to' : List String
deriving DecidableEq, Repr

/-- `Transition.isDeterministic()`: exactly one destination. -/
def Transition.isDeterministic (t : Transition) : Bool :=
  t.to'.length == 1

/-- `Transition.equals(other)` (src/models/transition.ts): same `from`, same
`input`, destination lists of the same length containing each other. -/
def Transition.tEquals (t other : Transition) : Bool :=
  if t.from' != other.from' || t.input != other.input then false
  else if t.to'.length != other.to'.length then false
  else t.to'.all (fun state => other.to'.contains state) &&
    other.to'.all (fun state => t.to'.contains state)

/-- An automaton configuration (src/models/automaton.ts, `AutomatonConfig`). -/
structure AutomatonConfig where
  states : List String
  alphabet : List String
  transitions : List Transition
  startStates : List String
  acceptStates : List String
deriving DecidableEq, Repr

/-- The constructed `Automaton` value (src/models/automaton.ts).  The stored
collections are the JS `Set`s built from the config arrays (dedup) and the
transition list as given. -/
structure Automaton where
  states : List String
  alphabet : List String
  transitions : List Transition
  startStates : List String
  acceptStates : List String
deriving DecidableEq, Repr

/-- `Automaton.getTransitions(from, input)`: all destinations reachable from
`from` on `input`.  The source answers this from the `transitionMap` index,
which concatenates `t.to` over all transitions with matching `from`/`input`
in list order; this is that concatenation. -/
def Automaton.getTransitions (A : Automaton) (fromState input : String) : List String :=
  (A.transitions.filter fun t => t.from' == fromState && t.input == input).flatMap Transition.to'

/-! ## Epsilon closure (src/simulationEngine.ts, `computeEpsilonClosure`) -/

/-- The epsilon destinations scanned for one popped `state`: the loop
`for (const t of automaton.transitions) if (t.from === state && t.input === 'ε')`
collects every element of each matching `t.to`. -/
def epsDests (ts : List Transition) (state : String) : List String :=
  (ts.filter fun t => t.from' == state && t.input == EPSILON).flatMap Transition.to'

/-- The inner loop body: destinations not yet in the closure, in order, each
added to the closure before the next is tested (mirrors the
`if (!closure.has(toState)) { closure.add(toState); stack.push(toState) }`
sequence). -/
def newDests (closure : List String) : List String → List String
  | [] => []
  | d :: ds =>
    if d ∈ closure then newDests closure ds
    else d :: newDests (closure ++ [d]) ds

theorem mem_of_mem_newDests {closure ds : List String} {x : String}
    (h : x ∈ newDests closure ds) : x ∈ ds ∧ x ∉ closure := by
  induction ds generalizing closure with
  | nil => simp [newDests] at h
  | cons d ds ih =>
    by_cases hd : d ∈ closure
    · simp only [newDests, if_pos hd] at h
      obtain ⟨h1, h2⟩ := ih h
      exact ⟨List.mem_cons_of_mem _ h1, h2⟩
    · simp only [newDests, if_neg hd] at h
      rcases List.mem_cons.mp h with rfl | h
      · exact ⟨List.mem_cons_self _ _, hd⟩
      · obtain ⟨h1, h2⟩ := ih h
        simp only [List.mem_append, List.mem_singleton, not_or] at h2
        exact ⟨List.mem_cons_of_mem _ h1, h2.1⟩

theorem mem_append_newDests {closure ds : List String} {x : String} :
    x ∈ closure ++ newDests closure ds ↔ x ∈ closure ∨ x ∈ ds := by
  induction ds generalizing closure with
  | nil => simp [newDests]
  | cons d ds ih =>
    by_cases hd : d ∈ closure
    · simp only [newDests, if_pos hd]
      rw [ih]
      simp only [List.mem_cons]
      constructor
      · rintro (h | h)
        · exact Or.inl h
        · exact Or.inr (Or.inr h)
      · rintro (h | h | h)
        · exact Or.inl h
        · exact Or.inl (h ▸ hd)
        · exact Or.inr h
    · simp only [newDests, if_neg hd]
      rw [List.append_cons, ih]
      simp only [List.mem_append, List.mem_singleton, List.mem_cons]
      tauto

/-- All destinations appearing in a transition list, as a finite set (the
universe inside which the closure worklist can grow). -/
def transDestUniv (ts : List Transition) : Finset String :=
  (ts.flatMap Transition.to').toFinset

theorem epsDests_subset_univ {ts : List Transition} {s x : String}
    (h : x ∈ epsDests ts s) : x ∈ transDestUniv ts := by
  simp only [epsDests, List.mem_flatMap, List.mem_filter] at h
  rcases h with ⟨t, ⟨ht, _⟩, hx⟩
  simp only [transDestUniv, List.mem_toFinset, List.mem_flatMap]
  exact ⟨t, ht, hx⟩

theorem closureLoop_dec (ts : List Transition) (closure : List String) (state : String)
    (rest : List String) :
    Prod.Lex (α := Nat) (β := Nat) (· < ·) (· < ·)
      ((transDestUniv ts \ (closure ++ newDests closure (epsDests ts state)).toFinset).card,
        (rest ++ newDests closure (epsDests ts state)).length)
      ((transDestUniv ts \ closure.toFinset).card, (state :: rest).length) := by
  rcases eq_or_ne (newDests closure (epsDests ts state)) [] with h | h
  · rw [h]
    simp only [List.append_nil]
    exact Prod.Lex.right _ (by simp [List.length_cons])
  · apply Prod.Lex.left
    apply Finset.card_lt_card
    rw [Finset.ssubset_iff_of_subset]
    · obtain ⟨dd, hd⟩ := List.exists_mem_of_ne_nil _ h
      obtain ⟨hd1, hd2⟩ := mem_of_mem_newDests hd
      refine ⟨dd, ?_, ?_⟩
      · exact Finset.mem_sdiff.mpr ⟨epsDests_subset_univ hd1, by simpa using hd2⟩
      · simp only [Finset.mem_sdiff, List.mem_toFinset, not_and, not_not]
        intro _
        exact List.mem_append.mpr (Or.inr hd)
    · apply Finset.sdiff_subset_sdiff le_rfl
      intro x hx
      simp only [List.mem_toFinset] at hx ⊢
      exact List.mem_append.mpr (Or.inl hx)

/-- The worklist loop of `computeEpsilonClosure`: pop a state, add its unseen
epsilon destinations to both the closure and the worklist. -/
def closureLoop (ts : List Transition) (closure : List String) (stack : List String) :
    List String :=
  match stack with
  | [] => closure
  | state :: rest =>
    let new := newDests closure (epsDests ts state)
    closureLoop ts (closure ++ new) (rest ++ new)
termination_by ((transDestUniv ts \ closure.toFinset).card, stack.length)
decreasing_by
  apply closureLoop_dec

/-- `SimulationEngine.computeEpsilonClosure(automaton, states)`: seed both the
closure set and the worklist with the input set (`new Set(states)`,
`[...states]`) and run the worklist loop. -/
def computeEpsilonClosure (automaton : Automaton) (states : List String) : List String :=
  closureLoop automaton.transitions states.dedup states.dedup

/-! ## Semantic characterisation of the epsilon closure -/

/-- One epsilon edge: some transition of `ts` goes from `a` to `b` with the
epsilon label. -/
def epsStep (ts : List Transition) (a b : String) : Prop :=
  ∃ t ∈ ts, t.from' = a ∧ t.input = EPSILON ∧ b ∈ t.to'

/-- Reachability along epsilon edges only. -/
def EReach (ts : List Transition) (a b : String) : Prop :=
  Relation.ReflTransGen (epsStep ts) a b

theorem mem_epsDests {ts : List Transition} {s d : String} :
    d ∈ epsDests ts s ↔ epsStep ts s d := by
  simp only [epsDests, List.mem_flatMap, List.mem_filter, epsStep, Bool.and_eq_true, beq_iff_eq]
  constructor
  · rintro ⟨t, ⟨ht, h1, h2⟩, hd⟩
    exact ⟨t, ht, h1, h2, hd⟩
  · rintro ⟨t, ht, h1, h2, hd⟩
    exact ⟨t, ⟨ht, h1, h2⟩, hd⟩

theorem closureLoop_sound {ts : List Transition} {R : Set String}
    (hR : ∀ a ∈ R, ∀ b, epsStep ts a b → b ∈ R) :
    ∀ closure stack : List String, (∀ x ∈ closure, x ∈ R) → (∀ x ∈ stack, x ∈ R) →
      ∀ x ∈ closureLoop ts closure stack, x ∈ R := by
  intro closure stack
  induction closure, stack using closureLoop.induct ts with
  | case1 closure =>
    intro hc _ x hx
    rw [closureLoop] at hx
    exact hc x hx
  | case2 closure state rest new ih =>
    intro hc hs x hx
    rw [closureLoop] at hx
    have hnew : ∀ y ∈ newDests closure (epsDests ts state), y ∈ R := by
      intro y hy
      obtain ⟨hy1, _⟩ := mem_of_mem_newDests hy
      exact hR state (hs state (List.mem_cons_self _ _)) y (mem_epsDests.mp hy1)
    refine ih ?_ ?_ x hx
    · intro y hy
      rcases List.mem_append.mp hy with h | h
      · exact hc y h
      · exact hnew y h
    · intro y hy
      rcases List.mem_append.mp hy with h | h
      · exact hs y (List.mem_cons_of_mem _ h)
      · exact hnew y h

theorem subset_closureLoop {ts : List Transition} :
    ∀ closure stack : List String, ∀ x ∈ closure, x ∈ closureLoop ts closure stack := by
  intro closure stack
  induction closure, stack using closureLoop.induct ts with
  | case1 closure =>
    intro x hx
    rw [closureLoop]
    exact hx
  | case2 closure state rest new ih =>
    intro x hx
    rw [closureLoop]
    exact ih x (List.mem_append.mpr (Or.inl hx))

theorem closureLoop_closed {ts : List Transition} :
    ∀ closure stack : List String,
      (∀ a ∈ closure, a ∉ stack → ∀ b, epsStep ts a b → b ∈ closure) →
      ∀ a ∈ closureLoop ts closure stack, ∀ b, epsStep ts a b →
        b ∈ closureLoop ts closure stack := by
  intro closure stack
  induction closure, stack using closureLoop.induct ts with
  | case1 closure =>
    intro hinv a ha b hab
    rw [closureLoop] at ha ⊢
    exact hinv a ha (by simp) b hab
  | case2 closure state rest new ih =>
    intro hinv a ha b hab
    rw [closureLoop] at ha ⊢
    refine ih ?_ a ha b hab
    intro a' ha' hstk b' hab'
    rcases List.mem_append.mp ha' with hcl | hnew
    · by_cases hrest : a' ∈ state :: rest
      · rcases List.mem_cons.mp hrest with rfl | h
        · exact mem_append_newDests.mpr (Or.inr (mem_epsDests.mpr hab'))
        · exact absurd (List.mem_append.mpr (Or.inl h)) hstk
      · exact List.mem_append.mpr (Or.inl (hinv a' hcl hrest b' hab'))
    · exact absurd (List.mem_append.mpr (Or.inr hnew)) hstk

/-- Membership in `computeEpsilonClosure`: exactly the states epsilon-reachable
from the input set. -/
theorem mem_computeEpsilonClosure {A : Automaton} {states : List String} {x : String} :
    x ∈ computeEpsilonClosure A states ↔ ∃ s ∈ states, EReach A.transitions s x := by
  constructor
  · intro hx
    refine closureLoop_sound (R := {y | ∃ s ∈ states, EReach A.transitions s y})
      ?_ _ _ ?_ ?_ x hx
    · rintro a ⟨s, hs, hreach⟩ b hab
      exact ⟨s, hs, Relation.ReflTransGen.tail hreach hab⟩
    · intro y hy
      exact ⟨y, List.mem_dedup.mp hy, Relation.ReflTransGen.refl⟩
    · intro y hy
      exact ⟨y, List.mem_dedup.mp hy, Relation.ReflTransGen.refl⟩
  · rintro ⟨s, hs, hreach⟩
    have hclosed := @closureLoop_closed A.transitions states.dedup states.dedup
      (by intro a ha hstk; exact absurd ha hstk)
    have hstart : s ∈ computeEpsilonClosure A states :=
      subset_closureLoop _ _ s (List.mem_dedup.mpr hs)
    induction hreach with
    | refl => exact hstart
    | tail _ hstep ih => exact hclosed _ ih _ hstep

/-- C10 core: the closure contains its input set (inflationary), for every
automaton and every input set, with no well-formedness assumption. -/
theorem computeEpsilonClosure_inflationary (A : Automaton) (states : List String) :
    ∀ s ∈ states, s ∈ computeEpsilonClosure A states := by
  intro s hs
  exact mem_computeEpsilonClosure.mpr ⟨s, hs, Relation.ReflTransGen.refl⟩

/-- C8 core: closure of a closure equals the closure, as sets of states. -/
theorem computeEpsilonClosure_idempotent (A : Automaton) (states : List String) :
    (computeEpsilonClosure A (computeEpsilonClosure A states)).toFinset =
      (computeEpsilonClosure A states).toFinset := by
  ext x
  simp only [List.mem_toFinset]
  constructor
  · intro hx
    obtain ⟨s, hs, h1⟩ := mem_computeEpsilonClosure.mp hx
    obtain ⟨s', hs', h2⟩ := mem_computeEpsilonClosure.mp hs
    exact mem_computeEpsilonClosure.mpr ⟨s', hs', h2.trans h1⟩
  · intro hx
    exact computeEpsilonClosure_inflationary A _ x hx

theorem computeEpsilonClosure_mono {A : Automaton} {s1 s2 : List String}
    (h : ∀ x ∈ s1, x ∈ s2) :
    ∀ x ∈ computeEpsilonClosure A s1, x ∈ computeEpsilonClosure A s2 := by
  intro x hx
  obtain ⟨s, hs, hr⟩ := mem_computeEpsilonClosure.mp hx
  exact mem_computeEpsilonClosure.mpr ⟨s, h s hs, hr⟩

theorem computeEpsilonClosure_subset_univ {A : Automaton} {states : List String} :
    ∀ x ∈ computeEpsilonClosure A states, x ∈ states ∨
      ∃ t ∈ A.transitions, x ∈ t.to' := by
  intro x hx
  obtain ⟨s, hs, hr⟩ := mem_computeEpsilonClosure.mp hx
  rcases Relation.ReflTransGen.cases_tail hr with rfl | ⟨c, _, hstep⟩
  · exact Or.inl hs
  · obtain ⟨t, ht, _, _, hto⟩ := hstep
    exact Or.inr ⟨t, ht, hto⟩

/-! ## Errors (src/errors/index.ts) -/

/-- The three error classes surfaced by the library. -/
inductive Err where
  | invalidAutomaton (msg : String)
  | simulation (msg : String)
  | conversion (msg : String)
deriving DecidableEq, Repr

/-! ## SimulationEngine (src/simulationEngine.ts) -/

/-- `SimulationEngine.simulateStep(automaton, currentStates, inputSymbol)`:
throws `SimulationError` when the symbol is not in the alphabet, otherwise
closure, then union of destinations, then closure again. -/
def simulateStep (automaton : Automaton) (currentStates : List String)
    (inputSymbol : String) : Except Err (List String) :=
  if automaton.alphabet.contains inputSymbol then
    let states := computeEpsilonClosure automaton currentStates
    let nextStates := states.flatMap fun state => automaton.getTransitions state inputSymbol
    .ok (computeEpsilonClosure automaton nextStates)
  else .error (.simulation "Input symbol not in automaton alphabet.")

/-- The per-symbol loop of fast-mode `simulate`: check the alphabet, step,
short-circuit to `false` when the active set becomes empty, and test the
accept states at the end of the input. -/
def fastLoop (automaton : Automaton) (currentStates : List String) :
    List String → Except Err Bool
  | [] => .ok (currentStates.any fun s => automaton.acceptStates.contains s)
  | symbol :: rest =>
    if automaton.alphabet.contains symbol then
      match simulateStep automaton currentStates symbol with
      | .error e => .error e
      | .ok next => if next.isEmpty then .ok false else fastLoop automaton next rest
    else .error (.simulation "Input symbol not in automaton alphabet.")

/-- Fast-mode `SimulationEngine.simulate(automaton, input)`: the input string
is modelled as the list of its symbols. -/
def simulateFast (automaton : Automaton) (input : List String) : Except Err Bool :=
  let currentStates := computeEpsilonClosure automaton automaton.startStates
  if input.length = 0 then
    .ok (currentStates.any fun s => automaton.acceptStates.contains s)
  else fastLoop automaton currentStates input

/-- One record of the step-by-step trace (`SimulationStep`). -/
structure SimulationStep where
  currentStates : List String
  inputSymbol : Option String
  transition : Option Transition
deriving DecidableEq, Repr

/-- `SimulationEngine.findApplicableTransitions`. -/
def findApplicableTransitions (automaton : Automaton) (currentStates : List String)
    (inputSymbol : String) : List Transition :=
  (computeEpsilonClosure automaton currentStates).flatMap fun state =>
    if (automaton.getTransitions state inputSymbol).length > 0 then
      automaton.transitions.filter fun t => t.from' == state && t.input == inputSymbol
    else []

/-- `SimulationEngine.createSimulationStep`: the `transition` field is kept
only when exactly one transition explains the move. -/
def createSimulationStep (currentStates : List String) (inputSymbol : Option String)
    (transitions : Option (List Transition)) : SimulationStep :=
  { currentStates := currentStates
    inputSymbol := inputSymbol
    transition :=
      match transitions with
      | some [t] => some t
      | _ => none }

/-- The per-symbol loop of trace-mode `simulate`: identical state evolution,
appending one step per consumed symbol and abandoning the walk once the
active set is empty. -/
def traceLoop (automaton : Automaton) (currentStates : List String)
    (steps : List SimulationStep) : List String → Except Err (List SimulationStep)
  | [] => .ok steps
  | symbol :: rest =>
    if automaton.alphabet.contains symbol then
      match simulateStep automaton currentStates symbol with
      | .error e => .error e
      | .ok next =>
        if next.isEmpty then
          .ok (steps ++ [createSimulationStep next (some symbol)
            (some (findApplicableTransitions automaton currentStates symbol))])
        else
          traceLoop automaton next (steps ++ [createSimulationStep next (some symbol)
            (some (findApplicableTransitions automaton currentStates symbol))]) rest
    else .error (.simulation "Input symbol not in automaton alphabet.")

/-- Trace-mode `SimulationEngine.simulate(automaton, input, {stepByStep:true})`. -/
def simulateTrace (automaton : Automaton) (input : List String) :
    Except Err (List SimulationStep) :=
  let currentStates := computeEpsilonClosure automaton automaton.startStates
  traceLoop automaton currentStates [createSimulationStep currentStates none none] input

/-! ## Semantic active-state sets -/

/-- The set of elements of a list. -/
def listSet (l : List String) : Set String := {x | x ∈ l}

/-- Epsilon closure, as a set operator. -/
def closSet (A : Automaton) (S : Set String) : Set String :=
  {x | ∃ s ∈ S, EReach A.transitions s x}

/-- One-symbol move: union of the destinations of `a`-labelled transitions
leaving `S`. -/
def moveSet (A : Automaton) (S : Set String) (a : String) : Set String :=
  {x | ∃ s ∈ S, ∃ t ∈ A.transitions, t.from' = s ∧ t.input = a ∧ x ∈ t.to'}

/-- The semantic one-symbol step of the engine. -/
def stepSet (A : Automaton) (S : Set String) (a : String) : Set String :=
  closSet A (moveSet A (closSet A S) a)

/-- The active set after consuming `w` from the start states. -/
def activeSet (A : Automaton) (w : List String) : Set String :=
  w.foldl (stepSet A) (closSet A (listSet A.startStates))

/-- Acceptance of `w` by `A`, semantically. -/
def Accepts (A : Automaton) (w : List String) : Prop :=
  ∃ x ∈ activeSet A w, x ∈ listSet A.acceptStates

theorem listSet_computeEpsilonClosure (A : Automaton) (states : List String) :
    listSet (computeEpsilonClosure A states) = closSet A (listSet states) := by
  ext x
  simp only [listSet, closSet, Set.mem_setOf_eq]
  exact mem_computeEpsilonClosure

theorem closSet_empty (A : Automaton) : closSet A ∅ = ∅ := by
  ext x
  simp [closSet]

theorem moveSet_empty (A : Automaton) (a : String) : moveSet A ∅ a = ∅ := by
  ext x
  simp [moveSet]

theorem stepSet_empty (A : Automaton) (a : String) : stepSet A ∅ a = ∅ := by
  rw [stepSet, closSet_empty, moveSet_empty, closSet_empty]

theorem foldl_stepSet_empty (A : Automaton) (w : List String) :
    w.foldl (stepSet A) ∅ = ∅ := by
  induction w with
  | nil => rfl
  | cons a rest ih => rw [List.foldl_cons, stepSet_empty, ih]

theorem mem_getTransitions {A : Automaton} {s a m : String} :
    m ∈ A.getTransitions s a ↔ ∃ t ∈ A.transitions, t.from' = s ∧ t.input = a ∧ m ∈ t.to' := by
  simp only [Automaton.getTransitions, List.mem_flatMap, List.mem_filter,
    Bool.and_eq_true, beq_iff_eq]
  constructor
  · rintro ⟨t, ⟨ht, h1, h2⟩, hm⟩
    exact ⟨t, ht, h1, h2, hm⟩
  · rintro ⟨t, ht, h1, h2, hm⟩
    exact ⟨t, ⟨ht, h1, h2⟩, hm⟩

theorem simulateStep_ok {A : Automaton} {current : List String} {a : String}
    (ha : a ∈ A.alphabet) :
    ∃ next, simulateStep A current a = Except.ok next ∧
      listSet next = stepSet A (listSet current) a := by
  rw [simulateStep, if_pos (List.elem_eq_true_of_mem ha)]
  refine ⟨_, rfl, ?_⟩
  ext x
  simp only [listSet, Set.mem_setOf_eq, stepSet, closSet, moveSet]
  constructor
  · intro hx
    obtain ⟨m, hm, hr⟩ := mem_computeEpsilonClosure.mp hx
    obtain ⟨s, hs, hg⟩ := List.mem_flatMap.mp hm
    obtain ⟨t, ht, h1, h2, hm'⟩ := mem_getTransitions.mp hg
    obtain ⟨c, hc, hcr⟩ := mem_computeEpsilonClosure.mp hs
    exact ⟨m, ⟨s, ⟨c, hc, hcr⟩, t, ht, h1, h2, hm'⟩, hr⟩
  · rintro ⟨m, ⟨s, ⟨c, hc, hcr⟩, t, ht, h1, h2, hm'⟩, hr⟩
    refine mem_computeEpsilonClosure.mpr ⟨m, ?_, hr⟩
    refine List.mem_flatMap.mpr ⟨s, mem_computeEpsilonClosure.mpr ⟨c, hc, hcr⟩, ?_⟩
    exact mem_getTransitions.mpr ⟨t, ht, h1, h2, hm'⟩

theorem listSet_eq_empty_iff {l : List String} : listSet l = ∅ ↔ l = [] := by
  constructor
  · intro h
    cases l with
    | nil => rfl
    | cons a rest =>
      exact absurd (Set.eq_empty_iff_forall_not_mem.mp h a) (by simp [listSet])
  · rintro rfl
    ext x
    simp [listSet]

theorem fastLoop_ok {A : Automaton} :
    ∀ (w : List String) (current : List String), (∀ a ∈ w, a ∈ A.alphabet) →
      ∃ b, fastLoop A current w = Except.ok b ∧
        (b = true ↔ ∃ x ∈ w.foldl (stepSet A) (listSet current), x ∈ listSet A.acceptStates) := by
  intro w
  induction w with
  | nil =>
    intro current _
    refine ⟨_, rfl, ?_⟩
    simp only [List.any_eq_true, List.foldl_nil, listSet, Set.mem_setOf_eq]
    constructor
    · rintro ⟨x, hx, hacc⟩
      exact ⟨x, hx, List.elem_iff.mp hacc⟩
    · rintro ⟨x, hx, hacc⟩
      exact ⟨x, hx, List.elem_eq_true_of_mem hacc⟩
  | cons a rest ih =>
    intro current hw
    have ha : a ∈ A.alphabet := hw a (List.mem_cons_self _ _)
    obtain ⟨next, hnext, hset⟩ := @simulateStep_ok A current a ha
    rw [fastLoop, if_pos (List.elem_eq_true_of_mem ha), hnext]
    have hred : (match Except.ok next with
        | Except.error e => (Except.error e : Except Err Bool)
        | Except.ok n => if n.isEmpty = true then Except.ok false else fastLoop A n rest) =
        if next.isEmpty = true then Except.ok false else fastLoop A next rest := rfl
    rw [hred]
    by_cases hempty : next.isEmpty
    · rw [if_pos hempty]
      refine ⟨false, rfl, iff_of_false (by simp) ?_⟩
      rintro ⟨x, hx, -⟩
      rw [List.foldl_cons, ← hset, listSet_eq_empty_iff.mpr (List.isEmpty_iff.mp hempty),
        foldl_stepSet_empty] at hx
      exact absurd hx (Set.not_mem_empty x)
    · rw [if_neg hempty]
      obtain ⟨b, hb, hiff⟩ := ih next (fun x hx => hw x (List.mem_cons_of_mem _ hx))
      refine ⟨b, hb, ?_⟩
      rw [hiff, List.foldl_cons, ← hset]

theorem simulateFast_ok {A : Automaton} {input : List String}
    (hin : ∀ a ∈ input, a ∈ A.alphabet) :
    ∃ b, simulateFast A input = Except.ok b ∧ (b = true ↔ Accepts A input) := by
  rw [simulateFast]
  cases input with
  | nil =>
    simp only [List.length_nil, if_pos rfl]
    refine ⟨_, rfl, ?_⟩
    simp only [List.any_eq_true, Accepts, activeSet, List.foldl_nil]
    rw [← listSet_computeEpsilonClosure]
    simp only [listSet, Set.mem_setOf_eq]
    constructor
    · rintro ⟨x, hx, hacc⟩
      exact ⟨x, hx, List.elem_iff.mp hacc⟩
    · rintro ⟨x, hx, hacc⟩
      exact ⟨x, hx, List.elem_eq_true_of_mem hacc⟩
  | cons a rest =>
    simp only [List.length_cons]
    rw [if_neg (by simp)]
    obtain ⟨b, hb, hiff⟩ := fastLoop_ok (a :: rest) (computeEpsilonClosure A A.startStates) hin
    refine ⟨b, hb, ?_⟩
    rw [hiff, Accepts, activeSet, listSet_computeEpsilonClosure]

/-! ## Error behaviour of the engine (for C4) -/

theorem simulateStep_error_iff {A : Automaton} {current : List String} {a : String} :
    simulateStep A current a =
      Except.error (Err.simulation "Input symbol not in automaton alphabet.") ↔
      a ∉ A.alphabet := by
  rw [simulateStep]
  by_cases ha : a ∈ A.alphabet
  · rw [if_pos (List.elem_eq_true_of_mem ha)]
    exact iff_of_false (fun h => Except.noConfusion h) (fun h => h ha)
  · rw [if_neg (fun h => ha (List.elem_iff.mp h))]
    exact iff_of_true rfl ha

/-- The raising condition of the fast-mode per-symbol loop: some symbol of `w`
is outside the alphabet, every earlier symbol is inside it, and the active set
is still non-empty after each strictly earlier step. -/
def RaisesFrom (A : Automaton) (S : Set String) (w : List String) : Prop :=
  ∃ u b v, w = u ++ b :: v ∧ (∀ x ∈ u, x ∈ A.alphabet) ∧ b ∉ A.alphabet ∧
    ∀ p q, u = p ++ q → p ≠ [] → p.foldl (stepSet A) S ≠ ∅

theorem fastLoop_error_iff {A : Automaton} :
    ∀ (w current : List String),
      (∃ e, fastLoop A current w = Except.error e) ↔
        RaisesFrom A (listSet current) w := by
  intro w
  induction w with
  | nil =>
    intro current
    apply iff_of_false
    · rintro ⟨e, h⟩
      rw [fastLoop] at h
      exact Except.noConfusion h
    · rintro ⟨u, b, v, heq, -⟩
      exact List.append_ne_nil_of_right_ne_nil u (List.cons_ne_nil b v) heq.symm
  | cons a rest ih =>
    intro current
    by_cases ha : a ∈ A.alphabet
    · obtain ⟨next, hnext, hset⟩ := @simulateStep_ok A current a ha
      rw [fastLoop, if_pos (List.elem_eq_true_of_mem ha), hnext]
      have hred : (match Except.ok next with
          | Except.error e => (Except.error e : Except Err Bool)
          | Except.ok n => if n.isEmpty = true then Except.ok false else fastLoop A n rest) =
          if next.isEmpty = true then Except.ok false else fastLoop A next rest := rfl
      rw [hred]
      by_cases hempty : next.isEmpty
      · rw [if_pos hempty]
        apply iff_of_false
        · rintro ⟨e, h⟩
          exact Except.noConfusion h
        · rintro ⟨u, b, v, heq, hu, hb, hpre⟩
          cases u with
          | nil =>
            rw [List.nil_append] at heq
            injection heq with h1 h2
            exact hb (h1 ▸ ha)
          | cons a0 u₂ =>
            rw [List.cons_append] at heq
            injection heq with h1 h2
            subst h1
            apply hpre [a] u₂ rfl (List.cons_ne_nil _ _)
            rw [List.foldl_cons, List.foldl_nil, ← hset]
            exact listSet_eq_empty_iff.mpr (List.isEmpty_iff.mp hempty)
      · rw [if_neg hempty]
        rw [ih next]
        have hnext_ne : listSet next ≠ ∅ := fun h =>
          hempty (by rw [List.isEmpty_iff]; exact listSet_eq_empty_iff.mp h)
        constructor
        · rintro ⟨u, b, v, heq, hu, hb, hpre⟩
          refine ⟨a :: u, b, v, by rw [List.cons_append, heq], ?_, hb, ?_⟩
          · intro x hx
            rcases List.mem_cons.mp hx with rfl | hx
            · exact ha
            · exact hu x hx
          · rintro p q hp hne'
            cases p with
            | nil => exact absurd rfl hne'
            | cons p₀ p₂ =>
              rw [List.cons_append] at hp
              injection hp with h1 h2
              subst h1
              rw [List.foldl_cons, ← hset]
              rcases eq_or_ne p₂ [] with rfl | hp₂
              · rw [List.foldl_nil]
                exact hnext_ne
              · exact hpre p₂ q h2 hp₂
        · rintro ⟨u, b, v, heq, hu, hb, hpre⟩
          cases u with
          | nil =>
            rw [List.nil_append] at heq
            injection heq with h1 h2
            exact absurd (h1 ▸ ha) hb
          | cons a0 u₂ =>
            rw [List.cons_append] at heq
            injection heq with h1 h2
            subst h1
            refine ⟨u₂, b, v, h2, fun x hx => hu x (List.mem_cons_of_mem _ hx), hb, ?_⟩
            rintro p q hp hne'
            have hthis := hpre (a :: p) q (by rw [hp, List.cons_append]) (List.cons_ne_nil _ _)
            rw [List.foldl_cons, ← hset] at hthis
            exact hthis
    · rw [fastLoop, if_neg (fun h => ha (List.elem_iff.mp h))]
      exact iff_of_true ⟨_, rfl⟩
        ⟨[], a, rest, rfl, by simp, ha,
          fun p q hp hne' => absurd (List.append_eq_nil.mp hp.symm).1 hne'⟩

theorem traceLoop_error_iff_fastLoop {A : Automaton} :
    ∀ (w current : List String) (steps : List SimulationStep),
      (∃ e, traceLoop A current steps w = Except.error e) ↔
        (∃ e, fastLoop A current w = Except.error e) := by
  intro w
  induction w with
  | nil =>
    intro current steps
    rw [traceLoop, fastLoop]
    exact iff_of_false (fun ⟨e, h⟩ => Except.noConfusion h) (fun ⟨e, h⟩ => Except.noConfusion h)
  | cons a rest ih =>
    intro current steps
    by_cases ha : a ∈ A.alphabet
    · obtain ⟨next, hnext, -⟩ := @simulateStep_ok A current a ha
      rw [traceLoop, fastLoop, if_pos (List.elem_eq_true_of_mem ha),
        if_pos (List.elem_eq_true_of_mem ha), hnext]
      have hredT : (match Except.ok next with
          | Except.error e => (Except.error e : Except Err (List SimulationStep))
          | Except.ok n => if n.isEmpty = true then
              Except.ok (steps ++ [createSimulationStep n (some a)
                (some (findApplicableTransitions A current a))])
            else traceLoop A n (steps ++ [createSimulationStep n (some a)
              (some (findApplicableTransitions A current a))]) rest) =
          (if next.isEmpty = true then
              Except.ok (steps ++ [createSimulationStep next (some a)
                (some (findApplicableTransitions A current a))])
            else traceLoop A next (steps ++ [createSimulationStep next (some a)
              (some (findApplicableTransitions A current a))]) rest) := rfl
      have hredF : (match Except.ok next with
          | Except.error e => (Except.error e : Except Err Bool)
          | Except.ok n => if n.isEmpty = true then Except.ok false else fastLoop A n rest) =
          if next.isEmpty = true then Except.ok false else fastLoop A next rest := rfl
      rw [hredT, hredF]
      by_cases hempty : next.isEmpty
      · rw [if_pos hempty, if_pos hempty]
        exact iff_of_false (fun ⟨e, h⟩ => Except.noConfusion h)
          (fun ⟨e, h⟩ => Except.noConfusion h)
      · rw [if_neg hempty, if_neg hempty]
        exact ih next _
    · rw [traceLoop, fastLoop, if_neg (fun h => ha (List.elem_iff.mp h)),
        if_neg (fun h => ha (List.elem_iff.mp h))]
      exact iff_of_true ⟨_, rfl⟩ ⟨_, rfl⟩

theorem simulateFast_error_iff {A : Automaton} {w : List String} :
    (∃ e, simulateFast A w = Except.error e) ↔
      RaisesFrom A (closSet A (listSet A.startStates)) w := by
  rw [simulateFast]
  cases w with
  | nil =>
    simp only [List.length_nil, if_pos rfl]
    apply iff_of_false
    · rintro ⟨e, h⟩
      exact Except.noConfusion h
    · rintro ⟨u, b, v, heq, -⟩
      exact List.append_ne_nil_of_right_ne_nil u (List.cons_ne_nil b v) heq.symm
  | cons a rest =>
    rw [if_neg (by simp)]
    rw [fastLoop_error_iff, listSet_computeEpsilonClosure]

theorem simulateTrace_error_iff {A : Automaton} {w : List String} :
    (∃ e, simulateTrace A w = Except.error e) ↔
      RaisesFrom A (closSet A (listSet A.startStates)) w := by
  rw [simulateTrace]
  rw [traceLoop_error_iff_fastLoop, fastLoop_error_iff, listSet_computeEpsilonClosure]

/-! ## Validator (src/utils/validator.ts) and Automaton construction -/

/-- `Validator.isTransition(t)`: structural guard for one transition.  The
`typeof` checks are vacuous in the embedding (everything is a string); the
`seen` duplicate loop over `t.to` is the `Nodup` test. -/
def Validator.isTransition (t : Transition) : Bool :=
  t.from'.length != 0 && t.to'.length != 0 &&
    t.to'.all (fun dest => dest.length != 0) && decide t.to'.Nodup

/-- The shared shape of `Validator.states`/`Validator.alphabet`: iterate,
rejecting empty strings and duplicates against the `seen` set. -/
def uniqueNonEmptyLoop (emptyMsg dupMsg : String) (seen : List String) :
    List String → Except Err Unit
  | [] => .ok ()
  | s :: rest =>
    if s.length = 0 then .error (.invalidAutomaton emptyMsg)
    else if seen.contains s then .error (.invalidAutomaton dupMsg)
    else uniqueNonEmptyLoop emptyMsg dupMsg (s :: seen) rest

/-- `Validator.states`. -/
def Validator.states (states : List String) : Except Err Unit :=
  if states.isEmpty then .error (.invalidAutomaton "States must be a non-empty array.")
  else uniqueNonEmptyLoop "States must be non-empty strings." "Duplicate state found." [] states

/-- `Validator.alphabet`. -/
def Validator.alphabet (alphabet : List String) : Except Err Unit :=
  if alphabet.isEmpty then .error (.invalidAutomaton "Alphabet must be a non-empty array.")
  else uniqueNonEmptyLoop "Alphabet symbols must be non-empty strings."
    "Duplicate symbol in alphabet." [] alphabet

/-- `Validator.transitions`. -/
def Validator.transitions (transitions : List Transition) : Except Err Unit :=
  if transitions.all Validator.isTransition then .ok ()
  else .error (.invalidAutomaton "Invalid transition structure.")

/-- The loop of `Validator.stateReferences`. -/
def stateReferencesLoop (stateSet : List String) : List Transition → Except Err Unit
  | [] => .ok ()
  | t :: rest =>
    if !Validator.isTransition t then .error (.invalidAutomaton "Invalid transition structure.")
    else if !stateSet.contains t.from' then
      .error (.invalidAutomaton "Transition from unknown state.")
    else if !(t.to'.all fun dest => stateSet.contains dest) then
      .error (.invalidAutomaton "Transition to unknown state.")
    else stateReferencesLoop stateSet rest

/-- `Validator.stateReferences`. -/
def Validator.stateReferences (states : List String) (transitions : List Transition) :
    Except Err Unit :=
  stateReferencesLoop states transitions

/-- The shared start and accept state loop of `Validator.startAndAcceptStates`. -/
def checkMembersLoop (stateSet : List String) (emptyMsg missingMsg : String) :
    List String → Except Err Unit
  | [] => .ok ()
  | s :: rest =>
    if s.length = 0 then .error (.invalidAutomaton emptyMsg)
    else if !stateSet.contains s then .error (.invalidAutomaton missingMsg)
    else checkMembersLoop stateSet emptyMsg missingMsg rest

/-- `Validator.startAndAcceptStates`. -/
def Validator.startAndAcceptStates (states startStates acceptStates : List String) :
    Except Err Unit :=
  if startStates.isEmpty then
    .error (.invalidAutomaton "Start states must be a non-empty array.")
  else do
    checkMembersLoop states "Start states must be non-empty strings."
      "Start state not in states." startStates
    checkMembersLoop states "Accept states must be non-empty strings."
      "Accept state not in states." acceptStates

/-- `Validator.validateTransitionSymbols`: every transition symbol is in the
alphabet unless it is the epsilon marker. -/
def Validator.validateTransitionSymbols (alphabet : List String)
    (transitions : List Transition) : Except Err Unit :=
  if transitions.all (fun t => t.input == EPSILON || alphabet.contains t.input) then .ok ()
  else .error (.invalidAutomaton "Transition input not in alphabet (except epsilon).")

/-- `Validator.validate(config)`: the six checks in source order; the first
failure is reported. -/
def Validator.validate (config : AutomatonConfig) : Except Err Unit := do
  Validator.states config.states
  Validator.alphabet config.alphabet
  Validator.transitions config.transitions
  Validator.stateReferences config.states config.transitions
  Validator.startAndAcceptStates config.states config.startStates config.acceptStates
  Validator.validateTransitionSymbols config.alphabet config.transitions

/-- The `Automaton` constructor: validate, then store the `Set`s built from
the config arrays (`new Set(...)` = `dedup`) and the transition list. -/
def Automaton.create (config : AutomatonConfig) : Except Err Automaton := do
  Validator.validate config
  return { states := config.states.dedup
           alphabet := config.alphabet.dedup
           transitions := config.transitions
           startStates := config.startStates.dedup
           acceptStates := config.acceptStates.dedup }

/-- `Automaton.isDFA()`: one start state (as a set), no epsilon labels, all
transitions deterministic. -/
def Automaton.isDFA (A : Automaton) : Bool :=
  if A.startStates.dedup.length != 1 then false
  else A.transitions.all fun t => !(t.input == EPSILON) && t.isDeterministic

/-- `Automaton.isNFA()`. -/
def Automaton.isNFA (A : Automaton) : Bool :=
  !A.isDFA

/-- `Automaton.setsEqual(a, b)`: same size and mutual membership (the JS sets
are modelled by lists, so size is the number of distinct elements). -/
def setsEqual (a b : List String) : Bool :=
  a.dedup.length == b.dedup.length && a.all fun v => b.contains v

/-- `Automaton.equals(other)`. -/
def Automaton.equals (A other : Automaton) : Bool :=
  if A.transitions.length != other.transitions.length then false
  else
    setsEqual A.states other.states &&
    setsEqual A.alphabet other.alphabet &&
    setsEqual A.startStates other.startStates &&
    setsEqual A.acceptStates other.acceptStates &&
    A.transitions.all fun t => other.transitions.any fun o => t.tEquals o

/-! ## Validator characterisations -/

theorem string_length_eq_zero {s : String} : s.length = 0 ↔ s = "" := by
  constructor
  · intro h
    cases s with
    | mk data =>
      cases data with
      | nil => rfl
      | cons c cs => simp [String.length] at h
  · rintro rfl
    rfl

theorem exceptSeq_ok {α : Type} {x : Except Err Unit} {f : Unit → Except Err α} {a : α} :
    (x >>= f) = Except.ok a ↔ x = Except.ok () ∧ f () = Except.ok a := by
  cases x with
  | error e => simp [Bind.bind, Except.bind]
  | ok u =>
    cases u
    simp [Bind.bind, Except.bind]

theorem uniqueNonEmptyLoop_ok {e d : String} :
    ∀ {l seen : List String}, uniqueNonEmptyLoop e d seen l = Except.ok () ↔
      (∀ s ∈ l, s ≠ "") ∧ l.Nodup ∧ ∀ s ∈ l, s ∉ seen := by
  intro l
  induction l with
  | nil =>
    intro seen
    simp [uniqueNonEmptyLoop]
  | cons s rest ih =>
    intro seen
    rw [uniqueNonEmptyLoop]
    by_cases h0 : s.length = 0
    · rw [if_pos h0]
      apply iff_of_false (fun h => Except.noConfusion h)
      rintro ⟨hne, -, -⟩
      exact hne s (List.mem_cons_self _ _) (string_length_eq_zero.mp h0)
    · rw [if_neg h0]
      by_cases hseen : seen.contains s
      · rw [if_pos hseen]
        apply iff_of_false (fun h => Except.noConfusion h)
        rintro ⟨-, -, hs⟩
        exact hs s (List.mem_cons_self _ _) (List.elem_iff.mp hseen)
      · rw [if_neg hseen]
        rw [ih]
        constructor
        · rintro ⟨h1, h2, h3⟩
          refine ⟨?_, ?_, ?_⟩
          · intro x hx
            rcases List.mem_cons.mp hx with rfl | hx
            · exact fun he => h0 (string_length_eq_zero.mpr he)
            · exact h1 x hx
          · rw [List.nodup_cons]
            exact ⟨fun hs => h3 s hs (List.mem_cons_self _ _), h2⟩
          · intro x hx
            rcases List.mem_cons.mp hx with rfl | hx
            · exact fun hmem => hseen (List.elem_eq_true_of_mem hmem)
            · exact fun hmem => h3 x hx (List.mem_cons_of_mem _ hmem)
        · rintro ⟨h1, h2, h3⟩
          obtain ⟨hnotin, h2'⟩ := List.nodup_cons.mp h2
          refine ⟨fun x hx => h1 x (List.mem_cons_of_mem _ hx), h2', ?_⟩
          intro x hx hxmem
          rcases List.mem_cons.mp hxmem with rfl | hxseen
          · exact hnotin hx
          · exact h3 x (List.mem_cons_of_mem _ hx) hxseen

theorem Validator.states_ok {l : List String} :
    Validator.states l = Except.ok () ↔
      l ≠ [] ∧ (∀ s ∈ l, s ≠ "") ∧ l.Nodup := by
  rw [Validator.states]
  by_cases h : l.isEmpty
  · rw [if_pos h]
    exact iff_of_false (fun hh => Except.noConfusion hh)
      (fun hh => hh.1 (List.isEmpty_iff.mp h))
  · rw [if_neg h, uniqueNonEmptyLoop_ok]
    constructor
    · rintro ⟨h1, h2, -⟩
      exact ⟨fun hnil => h (by rw [hnil]; rfl), h1, h2⟩
    · rintro ⟨-, h1, h2⟩
      exact ⟨h1, h2, by simp⟩

theorem Validator.alphabet_ok {l : List String} :
    Validator.alphabet l = Except.ok () ↔
      l ≠ [] ∧ (∀ s ∈ l, s ≠ "") ∧ l.Nodup := by
  rw [Validator.alphabet]
  by_cases h : l.isEmpty
  · rw [if_pos h]
    exact iff_of_false (fun hh => Except.noConfusion hh)
      (fun hh => hh.1 (List.isEmpty_iff.mp h))
  · rw [if_neg h, uniqueNonEmptyLoop_ok]
    constructor
    · rintro ⟨h1, h2, -⟩
      exact ⟨fun hnil => h (by rw [hnil]; rfl), h1, h2⟩
    · rintro ⟨-, h1, h2⟩
      exact ⟨h1, h2, by simp⟩

theorem Validator.isTransition_iff {t : Transition} :
    Validator.isTransition t = true ↔
      t.from' ≠ "" ∧ t.to' ≠ [] ∧ (∀ dd ∈ t.to', dd ≠ "") ∧ t.to'.Nodup := by
  rw [Validator.isTransition]
  simp only [Bool.and_eq_true, bne_iff_ne, ne_eq, List.all_eq_true, decide_eq_true_eq]
  constructor
  · rintro ⟨⟨⟨h1, h2⟩, h3⟩, h4⟩
    refine ⟨fun h => h1 (string_length_eq_zero.mpr h), fun h => h2 (by rw [h]; rfl),
      fun dd hd h => (h3 dd hd) ?_, h4⟩
    rw [h]
    rfl
  · rintro ⟨h1, h2, h3, h4⟩
    refine ⟨⟨⟨fun h => h1 (string_length_eq_zero.mp h),
      fun h => h2 (List.length_eq_zero.mp h)⟩, ?_⟩, h4⟩
    intro dd hd h
    exact h3 dd hd (string_length_eq_zero.mp h)

theorem Validator.transitions_ok {ts : List Transition} :
    Validator.transitions ts = Except.ok () ↔ ∀ t ∈ ts, Validator.isTransition t = true := by
  rw [Validator.transitions]
  by_cases h : ts.all Validator.isTransition
  · rw [if_pos h]
    exact iff_of_true rfl (List.all_eq_true.mp h)
  · rw [if_neg h]
    exact iff_of_false (fun hh => Except.noConfusion hh)
      (fun hh => h (List.all_eq_true.mpr hh))

theorem stateReferencesLoop_ok {states : List String} :
    ∀ {ts : List Transition}, stateReferencesLoop states ts = Except.ok () ↔
      ∀ t ∈ ts, Validator.isTransition t = true ∧ t.from' ∈ states ∧
        ∀ dd ∈ t.to', dd ∈ states := by
  intro ts
  induction ts with
  | nil => simp [stateReferencesLoop]
  | cons t rest ih =>
    rw [stateReferencesLoop]
    by_cases h1 : Validator.isTransition t = true
    · rw [if_neg (by rw [h1]; simp)]
      by_cases h2 : states.contains t.from'
      · rw [if_neg (by rw [h2]; simp)]
        by_cases h3 : t.to'.all (fun dest => states.contains dest) = true
        · rw [if_neg (by rw [h3]; simp)]
          rw [ih]
          constructor
          · intro hall x hx
            rcases List.mem_cons.mp hx with rfl | hx
            · exact ⟨h1, List.elem_iff.mp h2,
                fun dd hd => List.elem_iff.mp (List.all_eq_true.mp h3 dd hd)⟩
            · exact hall x hx
          · intro hall x hx
            exact hall x (List.mem_cons_of_mem _ hx)
        · rw [if_pos (by rw [Bool.eq_false_iff.mpr h3]; rfl)]
          apply iff_of_false (fun hh => Except.noConfusion hh)
          intro hall
          obtain ⟨-, -, hto⟩ := hall t (List.mem_cons_self _ _)
          exact h3 (List.all_eq_true.mpr fun dd hd => List.elem_eq_true_of_mem (hto dd hd))
      · rw [if_pos (by rw [Bool.eq_false_iff.mpr h2]; rfl)]
        apply iff_of_false (fun hh => Except.noConfusion hh)
        intro hall
        obtain ⟨-, hfrom, -⟩ := hall t (List.mem_cons_self _ _)
        exact h2 (List.elem_eq_true_of_mem hfrom)
    · rw [if_pos (by rw [Bool.eq_false_iff.mpr h1]; rfl)]
      apply iff_of_false (fun hh => Except.noConfusion hh)
      intro hall
      exact h1 (hall t (List.mem_cons_self _ _)).1

theorem checkMembersLoop_ok {stateSet : List String} {e m : String} :
    ∀ {l : List String}, checkMembersLoop stateSet e m l = Except.ok () ↔
      ∀ s ∈ l, s ≠ "" ∧ s ∈ stateSet := by
  intro l
  induction l with
  | nil => simp [checkMembersLoop]
  | cons s rest ih =>
    rw [checkMembersLoop]
    by_cases h0 : s.length = 0
    · rw [if_pos h0]
      apply iff_of_false (fun hh => Except.noConfusion hh)
      intro hall
      exact (hall s (List.mem_cons_self _ _)).1 (string_length_eq_zero.mp h0)
    · rw [if_neg h0]
      by_cases h2 : stateSet.contains s
      · rw [if_neg (by rw [h2]; simp)]
        rw [ih]
        constructor
        · intro hall x hx
          rcases List.mem_cons.mp hx with rfl | hx
          · exact ⟨fun he => h0 (string_length_eq_zero.mpr he), List.elem_iff.mp h2⟩
          · exact hall x hx
        · intro hall x hx
          exact hall x (List.mem_cons_of_mem _ hx)
      · rw [if_pos (by rw [Bool.eq_false_iff.mpr h2]; rfl)]
        apply iff_of_false (fun hh => Except.noConfusion hh)
        intro hall
        exact h2 (List.elem_eq_true_of_mem (hall s (List.mem_cons_self _ _)).2)

theorem Validator.startAndAcceptStates_ok {states startStates acceptStates : List String} :
    Validator.startAndAcceptStates states startStates acceptStates = Except.ok () ↔
      startStates ≠ [] ∧ (∀ s ∈ startStates, s ≠ "" ∧ s ∈ states) ∧
        ∀ s ∈ acceptStates, s ≠ "" ∧ s ∈ states := by
  rw [Validator.startAndAcceptStates]
  by_cases h : startStates.isEmpty
  · rw [if_pos h]
    exact iff_of_false (fun hh => Except.noConfusion hh)
      (fun hh => hh.1 (List.isEmpty_iff.mp h))
  · rw [if_neg h]
    rw [exceptSeq_ok, checkMembersLoop_ok, checkMembersLoop_ok]
    constructor
    · rintro ⟨h1, h2⟩
      exact ⟨fun hnil => h (by rw [hnil]; rfl), h1, h2⟩
    · rintro ⟨-, h1, h2⟩
      exact ⟨h1, h2⟩

theorem Validator.validateTransitionSymbols_ok {alphabet : List String}
    {ts : List Transition} :
    Validator.validateTransitionSymbols alphabet ts = Except.ok () ↔
      ∀ t ∈ ts, t.input = EPSILON ∨ t.input ∈ alphabet := by
  rw [Validator.validateTransitionSymbols]
  by_cases h : ts.all (fun t => t.input == EPSILON || alphabet.contains t.input)
  · rw [if_pos h]
    apply iff_of_true rfl
    intro t ht
    have := List.all_eq_true.mp h t ht
    rcases Bool.or_eq_true _ _ |>.mp this with h' | h'
    · exact Or.inl (beq_iff_eq.mp h')
    · exact Or.inr (List.elem_iff.mp h')
  · rw [if_neg h]
    apply iff_of_false (fun hh => Except.noConfusion hh)
    intro hall
    refine h (List.all_eq_true.mpr fun t ht => ?_)
    rcases hall t ht with h' | h'
    · exact Bool.or_eq_true _ _ |>.mpr (Or.inl (beq_iff_eq.mpr h'))
    · exact Bool.or_eq_true _ _ |>.mpr (Or.inr (List.elem_eq_true_of_mem h'))

theorem Validator.validate_ok {c : AutomatonConfig} :
    Validator.validate c = Except.ok () ↔
      Validator.states c.states = Except.ok () ∧
      Validator.alphabet c.alphabet = Except.ok () ∧
      Validator.transitions c.transitions = Except.ok () ∧
      Validator.stateReferences c.states c.transitions = Except.ok () ∧
      Validator.startAndAcceptStates c.states c.startStates c.acceptStates = Except.ok () ∧
      Validator.validateTransitionSymbols c.alphabet c.transitions = Except.ok () := by
  rw [Validator.validate]
  rw [exceptSeq_ok, exceptSeq_ok, exceptSeq_ok, exceptSeq_ok, exceptSeq_ok]

/-- Well-formedness of a constructed automaton: exactly the facts guaranteed
by a successful `Validator.validate` run at construction time. -/
structure Automaton.WF (A : Automaton) : Prop where
  states_ne : A.states ≠ []
  states_nodup : A.states.Nodup
  states_str : ∀ s ∈ A.states, s ≠ ""
  alphabet_ne : A.alphabet ≠ []
  alphabet_nodup : A.alphabet.Nodup
  alphabet_str : ∀ s ∈ A.alphabet, s ≠ ""
  trans_wf : ∀ t ∈ A.transitions, Validator.isTransition t = true
  trans_from_mem : ∀ t ∈ A.transitions, t.from' ∈ A.states
  trans_to_mem : ∀ t ∈ A.transitions, ∀ dd ∈ t.to', dd ∈ A.states
  start_ne : A.startStates ≠ []
  start_mem : ∀ s ∈ A.startStates, s ∈ A.states
  accept_mem : ∀ s ∈ A.acceptStates, s ∈ A.states
  symbols_mem : ∀ t ∈ A.transitions, t.input = EPSILON ∨ t.input ∈ A.alphabet

theorem Automaton.create_ok {c : AutomatonConfig} {A : Automaton}
    (h : Automaton.create c = Except.ok A) :
    Validator.validate c = Except.ok () ∧
      A = ⟨c.states.dedup, c.alphabet.dedup, c.transitions, c.startStates.dedup,
        c.acceptStates.dedup⟩ := by
  rw [Automaton.create] at h
  cases hv : Validator.validate c with
  | error e =>
    rw [hv] at h
    simp [Bind.bind, Except.bind] at h
  | ok u =>
    cases u
    rw [hv] at h
    simp only [Bind.bind, Except.bind, pure, Except.pure] at h
    injection h with h'
    exact ⟨rfl, h'.symm⟩

theorem Automaton.create_wf {c : AutomatonConfig} {A : Automaton}
    (h : Automaton.create c = Except.ok A) : A.WF := by
  obtain ⟨hv, rfl⟩ := Automaton.create_ok h
  obtain ⟨h1, h2, h3, h4, h5, h6⟩ := Validator.validate_ok.mp hv
  obtain ⟨hs1, hs2, hs3⟩ := Validator.states_ok.mp h1
  obtain ⟨ha1, ha2, ha3⟩ := Validator.alphabet_ok.mp h2
  have ht := Validator.transitions_ok.mp h3
  have hr := stateReferencesLoop_ok.mp h4
  obtain ⟨hss1, hss2, hss3⟩ := Validator.startAndAcceptStates_ok.mp h5
  have hsym := Validator.validateTransitionSymbols_ok.mp h6
  constructor
  · exact fun hnil => hs1 ((List.dedup_eq_nil _).mp hnil)
  · exact List.nodup_dedup _
  · exact fun s hs => hs2 s (List.mem_dedup.mp hs)
  · exact fun hnil => ha1 ((List.dedup_eq_nil _).mp hnil)
  · exact List.nodup_dedup _
  · exact fun s hs => ha2 s (List.mem_dedup.mp hs)
  · exact ht
  · exact fun t htm => List.mem_dedup.mpr (hr t htm).2.1
  · exact fun t htm dd hd => List.mem_dedup.mpr ((hr t htm).2.2 dd hd)
  · exact fun hnil => hss1 ((List.dedup_eq_nil _).mp hnil)
  · exact fun s hs => List.mem_dedup.mpr (hss2 s (List.mem_dedup.mp hs)).2
  · exact fun s hs => List.mem_dedup.mpr (hss3 s (List.mem_dedup.mp hs)).2
  · intro t htm
    rcases hsym t htm with h' | h'
    · exact Or.inl h'
    · exact Or.inr (List.mem_dedup.mpr h')

/-! ## NFAToDFAConverter (src/NFAToDFAConverter.ts) -/

/-- JS `Array.prototype.sort()` compares strings by code units; on the
basic-multilingual-plane ids used here this is the lexicographic order on the
underlying character data. -/
def strDataLe (a b : String) : Prop := a.data ≤ b.data

instance : DecidableRel strDataLe := fun a b =>
  inferInstanceAs (Decidable (a.data ≤ b.data))

instance : IsTotal String strDataLe := ⟨fun a b => le_total a.data b.data⟩

instance : IsTrans String strDataLe := ⟨fun _ _ _ h1 h2 => le_trans h1 h2⟩

instance : IsAntisymm String strDataLe := by
  constructor
  intro a b h1 h2
  cases a with
  | mk da =>
    cases b with
    | mk db =>
      simp only [strDataLe] at h1 h2
      exact congrArg String.mk (le_antisymm h1 h2)

/-- `Array.prototype.join(', ')`. -/
def joinComma : List String → String
  | [] => ""
  | [a] => a
  | a :: rest => a ++ ", " ++ joinComma rest

/-- `NFAToDFAConverter.generateSubsetStateName(stateSet)`: the sorted,
`", "`-joined member ids, or the sentinel `"∅"` when the join is the empty
string (`|| '∅'` tests JS falsiness of the joined string). -/
def generateSubsetStateName (stateSet : List String) : String :=
  if joinComma (List.insertionSort strDataLe stateSet.dedup) = "" then "∅"
  else joinComma (List.insertionSort strDataLe stateSet.dedup)

/-- The per-(subset, symbol) computation shared by `createStateSubsets` and
`createDFATransitions`: destinations on `symbol` from members of `current`,
then the epsilon closure. -/
def nextSubset (nfa : Automaton) (current : List String) (symbol : String) : List String :=
  computeEpsilonClosure nfa
    (current.flatMap fun state =>
      (nfa.transitions.filter fun t => t.from' == state && t.input == symbol).flatMap
        Transition.to')

/-- Everything a reachable subset can contain: start states and transition
destinations. -/
def subsetUniv (nfa : Automaton) : List String :=
  nfa.startStates ++ nfa.transitions.flatMap Transition.to'

/-- All names a subset of `subsetUniv` can receive. -/
def nameCandidates (nfa : Automaton) : Finset String :=
  ((subsetUniv nfa).sublists.map generateSubsetStateName).toFinset

theorem generateSubsetStateName_eq_of_mem_iff {l₁ l₂ : List String}
    (h : ∀ x, x ∈ l₁ ↔ x ∈ l₂) :
    generateSubsetStateName l₁ = generateSubsetStateName l₂ := by
  have hperm : List.Perm l₁.dedup l₂.dedup :=
    (List.perm_ext_iff_of_nodup (List.nodup_dedup _) (List.nodup_dedup _)).mpr
      (fun a => by rw [List.mem_dedup, List.mem_dedup]; exact h a)
  have hsort : List.insertionSort strDataLe l₁.dedup = List.insertionSort strDataLe l₂.dedup :=
    List.eq_of_perm_of_sorted
      ((List.perm_insertionSort _ _).trans (hperm.trans (List.perm_insertionSort _ _).symm))
      (List.sorted_insertionSort _ _) (List.sorted_insertionSort _ _)
  rw [generateSubsetStateName, generateSubsetStateName, hsort]

theorem name_mem_candidates {nfa : Automaton} {l : List String}
    (h : ∀ x ∈ l, x ∈ subsetUniv nfa) :
    generateSubsetStateName l ∈ nameCandidates nfa := by
  rw [nameCandidates, List.mem_toFinset, List.mem_map]
  refine ⟨(subsetUniv nfa).filter fun x => l.contains x,
    List.mem_sublists.mpr (List.filter_sublist _), ?_⟩
  apply generateSubsetStateName_eq_of_mem_iff
  intro x
  rw [List.mem_filter]
  constructor
  · rintro ⟨-, hx⟩
    exact List.elem_iff.mp hx
  · intro hx
    exact ⟨h x hx, List.elem_eq_true_of_mem hx⟩

theorem nextSubset_subset_univ {nfa : Automaton} {current : List String} {symbol : String} :
    ∀ x ∈ nextSubset nfa current symbol, x ∈ subsetUniv nfa := by
  intro x hx
  rcases computeEpsilonClosure_subset_univ x hx with h | ⟨t, ht, hto⟩
  · simp only [List.mem_flatMap, List.mem_filter] at h
    obtain ⟨state, -, t, ⟨ht, -⟩, hx'⟩ := h
    simp only [subsetUniv, List.mem_append, List.mem_flatMap]
    exact Or.inr ⟨t, ht, hx'⟩
  · simp only [subsetUniv, List.mem_append, List.mem_flatMap]
    exact Or.inr ⟨t, ht, hto⟩

/-- The inner `for (const symbol of nfa.alphabet)` loop of the subset BFS:
for each symbol compute the next subset; record it in `visited` and append it
to the worklist when it is non-empty and its name is new. -/
def processSymbols (nfa : Automaton) (current : List String) :
    List String → List (String × List String) →
    List (String × List String) × List (List String)
  | [], visited => (visited, [])
  | symbol :: restSyms, visited =>
    if !(nextSubset nfa current symbol).isEmpty &&
        !((visited.map Prod.fst).contains (generateSubsetStateName (nextSubset nfa current symbol))) then
      ((processSymbols nfa current restSyms
          (visited ++ [(generateSubsetStateName (nextSubset nfa current symbol),
            nextSubset nfa current symbol)])).1,
        nextSubset nfa current symbol ::
          (processSymbols nfa current restSyms
            (visited ++ [(generateSubsetStateName (nextSubset nfa current symbol),
              nextSubset nfa current symbol)])).2)
    else processSymbols nfa current restSyms visited

theorem processSymbols_spec (nfa : Automaton) (current : List String) :
    ∀ (syms : List String) (visited : List (String × List String)),
      ∃ extra, (processSymbols nfa current syms visited).1 = visited ++ extra ∧
        (processSymbols nfa current syms visited).2.length = extra.length ∧
        ∀ p ∈ extra, p.1 ∈ nameCandidates nfa ∧ p.1 ∉ visited.map Prod.fst := by
  intro syms
  induction syms with
  | nil =>
    intro visited
    exact ⟨[], by simp [processSymbols], by simp [processSymbols], by simp⟩
  | cons symbol restSyms ih =>
    intro visited
    rw [processSymbols]
    by_cases hcond : (!(nextSubset nfa current symbol).isEmpty &&
        !((visited.map Prod.fst).contains
          (generateSubsetStateName (nextSubset nfa current symbol)))) = true
    · rw [if_pos hcond]
      obtain ⟨extra, h1, h2, h3⟩ := ih (visited ++
        [(generateSubsetStateName (nextSubset nfa current symbol), nextSubset nfa current symbol)])
      refine ⟨(generateSubsetStateName (nextSubset nfa current symbol),
        nextSubset nfa current symbol) :: extra, ?_, ?_, ?_⟩
      · rw [h1]
        simp [List.append_assoc]
      · simp only [List.length_cons, h2]
      · intro p hp
        rcases List.mem_cons.mp hp with rfl | hp
        · refine ⟨name_mem_candidates fun x hx => nextSubset_subset_univ x hx, ?_⟩
          have h2' := (Bool.and_eq_true _ _ |>.mp hcond).2
          intro hmem
          have hmem' : (List.map Prod.fst visited).contains
              (generateSubsetStateName (nextSubset nfa current symbol)) = true :=
            List.elem_eq_true_of_mem hmem
          rw [hmem'] at h2'
          simp at h2'
        · obtain ⟨hc, hnm⟩ := h3 p hp
          refine ⟨hc, fun hmem => hnm ?_⟩
          simp only [List.map_append, List.mem_append]
          exact Or.inl hmem
    · rw [if_neg hcond]
      exact ih visited

theorem subsetsLoop_dec (nfa : Automaton) (current : List String)
    (rest : List (List String)) (visited : List (String × List String)) :
    Prod.Lex (α := Nat) (β := Nat) (· < ·) (· < ·)
      ((nameCandidates nfa \
          ((processSymbols nfa current nfa.alphabet visited).1.map Prod.fst).toFinset).card,
        (rest ++ (processSymbols nfa current nfa.alphabet visited).2).length)
      ((nameCandidates nfa \ (visited.map Prod.fst).toFinset).card,
        (current :: rest).length) := by
  obtain ⟨extra, h1, h2, h3⟩ := processSymbols_spec nfa current nfa.alphabet visited
  rcases eq_or_ne extra [] with rfl | hne
  · have hq : (processSymbols nfa current nfa.alphabet visited).2 = [] :=
      List.length_eq_zero.mp (by rw [h2]; rfl)
    rw [h1, List.append_nil, hq, List.append_nil]
    exact Prod.Lex.right _ (by simp [List.length_cons])
  · apply Prod.Lex.left
    apply Finset.card_lt_card
    rw [Finset.ssubset_iff_of_subset]
    · obtain ⟨e, he⟩ := List.exists_mem_of_ne_nil _ hne
      obtain ⟨hc, hnm⟩ := h3 e he
      refine ⟨e.1, Finset.mem_sdiff.mpr ⟨hc, by simpa using hnm⟩, ?_⟩
      simp only [Finset.mem_sdiff, not_and, not_not]
      intro h4
      rw [h1, List.mem_toFinset, List.map_append]
      exact List.mem_append.mpr (Or.inr (List.mem_map.mpr ⟨e, he, rfl⟩))
    · apply Finset.sdiff_subset_sdiff le_rfl
      intro x hx
      rw [List.mem_toFinset] at hx
      rw [h1, List.mem_toFinset, List.map_append]
      exact List.mem_append.mpr (Or.inl hx)

/-- The outer worklist loop shared by `createStateSubsets` and the step-by-step
variant: dequeue a subset, process every alphabet symbol, enqueue the newly
discovered subsets. -/
def subsetsLoop (nfa : Automaton) (queue : List (List String))
    (visited : List (String × List String)) : List (String × List String) :=
  match queue with
  | [] => visited
  | current :: rest =>
    subsetsLoop nfa (rest ++ (processSymbols nfa current nfa.alphabet visited).2)
      (processSymbols nfa current nfa.alphabet visited).1
termination_by ((nameCandidates nfa \ (visited.map Prod.fst).toFinset).card, queue.length)
decreasing_by
  apply subsetsLoop_dec

/-- `NFAToDFAConverter.createStateSubsets(nfa)`: breadth-first exploration of
the reachable subsets from the epsilon closure of the start states.  The
visited map is an association list in insertion order. -/
def createStateSubsets (nfa : Automaton) : List (String × List String) :=
  subsetsLoop nfa [computeEpsilonClosure nfa nfa.startStates]
    [(generateSubsetStateName (computeEpsilonClosure nfa nfa.startStates),
      computeEpsilonClosure nfa nfa.startStates)]

/-- `NFAToDFAConverter.createDFATransitions(nfa, stateSubsets)`. -/
def createDFATransitions (nfa : Automaton)
    (stateSubsets : List (String × List String)) : List Transition :=
  stateSubsets.flatMap fun p =>
    nfa.alphabet.flatMap fun symbol =>
      if (stateSubsets.map Prod.fst).contains
          (generateSubsetStateName (nextSubset nfa p.2 symbol)) &&
          !(nextSubset nfa p.2 symbol).isEmpty then
        [⟨p.1, symbol, [generateSubsetStateName (nextSubset nfa p.2 symbol)]⟩]
      else []

/-- `NFAToDFAConverter.convert` (the direct, non-step-by-step variant
`#convertDirectly`): reject non-NFAs with `ConversionError`, then build the
DFA configuration and construct it (`new Automaton(...)`, which re-validates
and can in principle surface an `InvalidAutomatonError`). -/
def convert (nfa : Automaton) : Except Err Automaton :=
  if nfa.isNFA then
    Automaton.create
      ⟨(createStateSubsets nfa).map Prod.fst,
        nfa.alphabet,
        createDFATransitions nfa (createStateSubsets nfa),
        [generateSubsetStateName (computeEpsilonClosure nfa nfa.startStates)],
        ((createStateSubsets nfa).filter fun p =>
          p.2.any fun s => nfa.acceptStates.contains s).map Prod.fst⟩
  else .error (.conversion "Input automaton is not an NFA.")

/-! ## Decidable equality for `Except` results (used by concrete evaluations) -/

instance exceptDecEq {ε α : Type} [DecidableEq ε] [DecidableEq α] :
    DecidableEq (Except ε α) := fun x y =>
  match x, y with
  | .error e, .error f =>
    if h : e = f then .isTrue (congrArg Except.error h)
    else .isFalse fun hh => h (Except.error.inj hh)
  | .ok a, .ok b =>
    if h : a = b then .isTrue (congrArg Except.ok h)
    else .isFalse fun hh => h (Except.ok.inj hh)
  | .error _, .ok _ => .isFalse fun hh => Except.noConfusion hh
  | .ok _, .error _ => .isFalse fun hh => Except.noConfusion hh

/-! ## Claim theorems: closure algebra (C8, C10) -/

/-- C10: `computeEpsilonClosure` is total (it is defined for every automaton
and every input list of states, including states outside the automaton's state
set) and inflationary: its result contains every member of the input set. -/
theorem C10_closure_total_inflationary (A : Automaton) (S : List String) :
    ∀ s ∈ S, s ∈ computeEpsilonClosure A S :=
  computeEpsilonClosure_inflationary A S

/-- C8: `computeEpsilonClosure` is idempotent: applying it to its own result
returns the same set of states. -/
theorem C8_closure_idempotent (A : Automaton) (S : List String) :
    (computeEpsilonClosure A (computeEpsilonClosure A S)).toFinset =
      (computeEpsilonClosure A S).toFinset :=
  computeEpsilonClosure_idempotent A S

/-! ## Claim theorems: simulation (C5, C4) -/

/-- C5: fast-mode `simulate(A, "")` returns `true` exactly when the epsilon
closure of the start states meets the accept states. -/
theorem C5_empty_input_fast (A : Automaton) :
    simulateFast A [] = Except.ok true ↔
      ∃ s ∈ computeEpsilonClosure A A.startStates, s ∈ A.acceptStates := by
  have hred : simulateFast A [] =
      Except.ok ((computeEpsilonClosure A A.startStates).any fun s =>
        A.acceptStates.contains s) := rfl
  rw [hred]
  constructor
  · intro h
    injection h with h'
    obtain ⟨x, hx, hacc⟩ := List.any_eq_true.mp h'
    exact ⟨x, hx, List.elem_iff.mp hacc⟩
  · rintro ⟨x, hx, hacc⟩
    congr 1
    exact List.any_eq_true.mpr ⟨x, hx, List.elem_eq_true_of_mem hacc⟩

/-- The concrete automaton of the C4 counterexample: one state, alphabet
`{"a"}`, no transitions. -/
def C4ex : Automaton := ⟨["q0"], ["a"], [], ["q0"], ["q0"]⟩

/-- C4 counterexample: `simulate` does NOT raise on every out-of-alphabet
symbol: on input `"ab"` the active set empties after `a`, the loop
short-circuits to `false`, and the out-of-alphabet `b` is never checked. -/
theorem C4_counterexample :
    Automaton.create ⟨["q0"], ["a"], [], ["q0"], ["q0"]⟩ = Except.ok C4ex ∧
    "b" ∉ C4ex.alphabet ∧
    simulateFast C4ex ["a", "b"] = Except.ok false := by
  refine ⟨by decide, by decide, ?_⟩
  simp +decide [C4ex, simulateFast, fastLoop, simulateStep, computeEpsilonClosure,
    closureLoop, newDests, epsDests, EPSILON, Automaton.getTransitions]

/-- C4 (amended): `simulateStep` raises `SimulationError` exactly when the
symbol is outside the alphabet (even when no state has a matching transition),
and `simulate` (both modes) raises exactly when the input contains an
out-of-alphabet symbol that is reached before the active set becomes empty —
an out-of-alphabet symbol positioned after the active set empties is never
checked and the call returns `false` instead. -/
theorem C4_amended (A : Automaton) (S : List String) (a : String) (w : List String) :
    (simulateStep A S a =
        Except.error (Err.simulation "Input symbol not in automaton alphabet.") ↔
      a ∉ A.alphabet) ∧
    ((∃ e, simulateFast A w = Except.error e) ↔
      RaisesFrom A (closSet A (listSet A.startStates)) w) ∧
    ((∃ e, simulateTrace A w = Except.error e) ↔
      RaisesFrom A (closSet A (listSet A.startStates)) w) :=
  ⟨simulateStep_error_iff, simulateFast_error_iff, simulateTrace_error_iff⟩

/-! ## Claim theorems: Automaton.equals (C6) -/

theorem setsEqual_iff {a b : List String} :
    setsEqual a b = true ↔ a.toFinset = b.toFinset := by
  rw [setsEqual, Bool.and_eq_true, beq_iff_eq, List.all_eq_true]
  constructor
  · rintro ⟨hlen, hsub⟩
    apply Finset.eq_of_subset_of_card_le
    · intro x hx
      rw [List.mem_toFinset] at hx ⊢
      exact List.elem_iff.mp (hsub x hx)
    · rw [List.card_toFinset, List.card_toFinset, hlen]
  · intro h
    constructor
    · rw [← List.card_toFinset, ← List.card_toFinset, h]
    · intro x hx
      refine List.elem_eq_true_of_mem ?_
      rw [← List.mem_toFinset, ← h, List.mem_toFinset]
      exact hx

/-- First of the two automatons of the C6 counterexample: a duplicated
`a`-self-loop. -/
def C6A : Automaton :=
  ⟨["q0"], ["a", "b"], [⟨"q0", "a", ["q0"]⟩, ⟨"q0", "a", ["q0"]⟩], ["q0"], []⟩

/-- Second automaton of the C6 counterexample: an `a`-self-loop and a
`b`-self-loop. -/
def C6B : Automaton :=
  ⟨["q0"], ["a", "b"], [⟨"q0", "a", ["q0"]⟩, ⟨"q0", "b", ["q0"]⟩], ["q0"], []⟩

/-- C6 counterexample: `equals` returns `true` for two constructed automatons
whose transition lists are NOT equal as sets — the `b` transition of the
second has no structurally-equal counterpart in the first.  `equals` only
checks lengths plus one-directional matching, which duplicates defeat. -/
theorem C6_counterexample :
    Automaton.create ⟨["q0"], ["a", "b"], [⟨"q0", "a", ["q0"]⟩, ⟨"q0", "a", ["q0"]⟩],
      ["q0"], []⟩ = Except.ok C6A ∧
    Automaton.create ⟨["q0"], ["a", "b"], [⟨"q0", "a", ["q0"]⟩, ⟨"q0", "b", ["q0"]⟩],
      ["q0"], []⟩ = Except.ok C6B ∧
    Automaton.equals C6A C6B = true ∧
    (⟨"q0", "b", ["q0"]⟩ : Transition) ∈ C6B.transitions ∧
    ∀ t ∈ C6A.transitions, t.tEquals ⟨"q0", "b", ["q0"]⟩ = false := by
  refine ⟨by decide, by decide, by decide, by decide, by decide⟩

/-- C6 (amended): `equals` returns `true` iff the four membership sets are
pairwise equal, the transition lists have the same length, and every
transition of the receiver is structurally equal to SOME transition of the
argument (one-directional containment; set equality of the transition lists
is not implied when duplicates are present). -/
theorem C6_amended (A B : Automaton) :
    Automaton.equals A B = true ↔
      A.transitions.length = B.transitions.length ∧
      A.states.toFinset = B.states.toFinset ∧
      A.alphabet.toFinset = B.alphabet.toFinset ∧
      A.startStates.toFinset = B.startStates.toFinset ∧
      A.acceptStates.toFinset = B.acceptStates.toFinset ∧
      ∀ t ∈ A.transitions, ∃ o ∈ B.transitions, t.tEquals o = true := by
  rw [Automaton.equals]
  by_cases hlen : A.transitions.length = B.transitions.length
  · rw [if_neg (by rw [bne_iff_ne]; exact fun hh => hh hlen)]
    simp only [Bool.and_eq_true, List.all_eq_true, List.any_eq_true, setsEqual_iff]
    constructor
    · rintro ⟨⟨⟨⟨h1, h2⟩, h3⟩, h4⟩, h5⟩
      exact ⟨hlen, h1, h2, h3, h4, h5⟩
    · rintro ⟨-, h1, h2, h3, h4, h5⟩
      exact ⟨⟨⟨⟨h1, h2⟩, h3⟩, h4⟩, h5⟩
  · rw [if_pos (by rw [bne_iff_ne]; exact hlen)]
    exact iff_of_false (fun hh => Bool.noConfusion hh) (fun hh => hlen hh.1)

/-! ## Claim theorems: epsilon in the alphabet (C7) -/

/-- C7 counterexample: a config whose alphabet is exactly the epsilon marker
constructs successfully — `Validator.alphabet` imposes no epsilon exclusion —
so a constructed automaton CAN carry `"ε"` in its alphabet. -/
theorem C7_counterexample :
    Automaton.create ⟨["q0"], [EPSILON], [], ["q0"], []⟩ =
      Except.ok ⟨["q0"], [EPSILON], [], ["q0"], []⟩ ∧
    EPSILON ∈ (⟨["q0"], [EPSILON], [], ["q0"], []⟩ : Automaton).alphabet := by
  exact ⟨by decide, by decide⟩

/-- C7 (amended): alphabet validation only requires a non-empty list of
distinct non-empty strings; the epsilon marker is NOT rejected as an alphabet
member (in particular `["ε"]` itself validates). -/
theorem C7_amended (l : List String) :
    (Validator.alphabet l = Except.ok () ↔ l ≠ [] ∧ (∀ s ∈ l, s ≠ "") ∧ l.Nodup) ∧
    Validator.alphabet [EPSILON] = Except.ok () :=
  ⟨Validator.alphabet_ok, by decide⟩

/-! ## Subset-construction BFS invariants -/

theorem processSymbols_spec2 (nfa : Automaton) (current : List String) :
    ∀ (syms : List String) (visited : List (String × List String)),
      ∃ extra, (processSymbols nfa current syms visited).1 = visited ++ extra ∧
        (processSymbols nfa current syms visited).2 = extra.map Prod.snd ∧
        (∀ p ∈ extra, ∃ a ∈ syms,
          p = (generateSubsetStateName (nextSubset nfa current a), nextSubset nfa current a) ∧
          nextSubset nfa current a ≠ []) ∧
        ((visited.map Prod.fst).Nodup → ((processSymbols nfa current syms visited).1.map Prod.fst).Nodup) := by
  intro syms
  induction syms with
  | nil =>
    intro visited
    exact ⟨[], by simp [processSymbols], by simp [processSymbols], by simp,
      by simp [processSymbols]⟩
  | cons symbol restSyms ih =>
    intro visited
    rw [processSymbols]
    by_cases hcond : (!(nextSubset nfa current symbol).isEmpty &&
        !((visited.map Prod.fst).contains
          (generateSubsetStateName (nextSubset nfa current symbol)))) = true
    · rw [if_pos hcond]
      obtain ⟨hne', hfresh⟩ := Bool.and_eq_true _ _ |>.mp hcond
      obtain ⟨extra, h1, h2, h3, h4⟩ := ih (visited ++
        [(generateSubsetStateName (nextSubset nfa current symbol), nextSubset nfa current symbol)])
      refine ⟨(generateSubsetStateName (nextSubset nfa current symbol),
        nextSubset nfa current symbol) :: extra, ?_, ?_, ?_, ?_⟩
      · rw [h1]
        simp [List.append_assoc]
      · simp only [List.map_cons, h2]
      · intro p hp
        rcases List.mem_cons.mp hp with rfl | hp
        · refine ⟨symbol, List.mem_cons_self _ _, rfl, ?_⟩
          intro hnil
          rw [hnil] at hne'
          simp at hne'
        · obtain ⟨a, ha, hpa, hna⟩ := h3 p hp
          exact ⟨a, List.mem_cons_of_mem _ ha, hpa, hna⟩
      · intro hnd
        apply h4
        rw [List.map_append]
        simp only [List.map_cons, List.map_nil]
        rw [List.nodup_append]
        refine ⟨hnd, List.nodup_singleton _, ?_⟩
        intro x hx
        simp only [List.mem_singleton]
        intro hx'
        rw [hx'] at hx
        exact absurd (List.elem_eq_true_of_mem hx) (by simpa using hfresh)
    · rw [if_neg hcond]
      obtain ⟨extra, h1, h2, h3, h4⟩ := ih visited
      refine ⟨extra, h1, h2, ?_, h4⟩
      intro p hp
      obtain ⟨a, ha, hpa, hna⟩ := h3 p hp
      exact ⟨a, List.mem_cons_of_mem _ ha, hpa, hna⟩

theorem processSymbols_keys_mono (nfa : Automaton) (current : List String)
    (syms : List String) (visited : List (String × List String)) :
    ∀ k ∈ visited.map Prod.fst,
      k ∈ (processSymbols nfa current syms visited).1.map Prod.fst := by
  obtain ⟨extra, h1, -, -, -⟩ := processSymbols_spec2 nfa current syms visited
  intro k hk
  rw [h1, List.map_append]
  exact List.mem_append.mpr (Or.inl hk)

theorem processSymbols_complete (nfa : Automaton) (current : List String) :
    ∀ (syms : List String) (visited : List (String × List String)),
      ∀ a ∈ syms, nextSubset nfa current a ≠ [] →
        generateSubsetStateName (nextSubset nfa current a) ∈
          (processSymbols nfa current syms visited).1.map Prod.fst := by
  intro syms
  induction syms with
  | nil =>
    intro visited a ha
    exact absurd ha (List.not_mem_nil a)
  | cons symbol restSyms ih =>
    intro visited a ha hne
    rw [processSymbols]
    by_cases hcond : (!(nextSubset nfa current symbol).isEmpty &&
        !((visited.map Prod.fst).contains
          (generateSubsetStateName (nextSubset nfa current symbol)))) = true
    · rw [if_pos hcond]
      rcases List.mem_cons.mp ha with rfl | ha
      · refine processSymbols_keys_mono nfa current restSyms _ _ ?_
        rw [List.map_append]
        refine List.mem_append.mpr (Or.inr ?_)
        simp
      · exact ih _ a ha hne
    · rw [if_neg hcond]
      rcases List.mem_cons.mp ha with rfl | ha
      · have hcontains : (visited.map Prod.fst).contains
            (generateSubsetStateName (nextSubset nfa current a)) = true := by
          by_contra hc
          apply hcond
          rw [Bool.and_eq_true]
          constructor
          · rw [Bool.eq_false_iff.mpr (fun h => hne (List.isEmpty_iff.mp h))]
            rfl
          · rw [Bool.eq_false_iff.mpr hc]
            rfl
        exact processSymbols_keys_mono nfa current restSyms visited _
          (List.elem_iff.mp hcontains)
      · exact ih _ a ha hne

theorem subsetsLoop_mono (nfa : Automaton) :
    ∀ (queue : List (List String)) (visited : List (String × List String)),
      ∀ p ∈ visited, p ∈ subsetsLoop nfa queue visited := by
  intro queue visited
  induction queue, visited using subsetsLoop.induct nfa with
  | case1 visited =>
    intro p hp
    rw [subsetsLoop]
    exact hp
  | case2 visited current rest ih =>
    intro p hp
    rw [subsetsLoop]
    refine ih p ?_
    obtain ⟨extra, h1, -, -, -⟩ := processSymbols_spec2 nfa current nfa.alphabet visited
    rw [h1]
    exact List.mem_append.mpr (Or.inl hp)

theorem subsetsLoop_entries (nfa : Automaton) (P : String × List String → Prop)
    (hP : ∀ (current : List String) (a : String), nextSubset nfa current a ≠ [] →
      P (generateSubsetStateName (nextSubset nfa current a), nextSubset nfa current a)) :
    ∀ (queue : List (List String)) (visited : List (String × List String)),
      (∀ p ∈ visited, P p) → ∀ p ∈ subsetsLoop nfa queue visited, P p := by
  intro queue visited
  induction queue, visited using subsetsLoop.induct nfa with
  | case1 visited =>
    intro hv p hp
    rw [subsetsLoop] at hp
    exact hv p hp
  | case2 visited current rest ih =>
    intro hv p hp
    rw [subsetsLoop] at hp
    refine ih ?_ p hp
    obtain ⟨extra, h1, -, h3, -⟩ := processSymbols_spec2 nfa current nfa.alphabet visited
    rw [h1]
    intro q hq
    rcases List.mem_append.mp hq with hq | hq
    · exact hv q hq
    · obtain ⟨a, -, rfl, hna⟩ := h3 q hq
      exact hP current a hna

theorem subsetsLoop_keys_nodup (nfa : Automaton) :
    ∀ (queue : List (List String)) (visited : List (String × List String)),
      (visited.map Prod.fst).Nodup → ((subsetsLoop nfa queue visited).map Prod.fst).Nodup := by
  intro queue visited
  induction queue, visited using subsetsLoop.induct nfa with
  | case1 visited =>
    intro h
    rw [subsetsLoop]
    exact h
  | case2 visited current rest ih =>
    intro h
    rw [subsetsLoop]
    obtain ⟨extra, -, -, -, h4⟩ := processSymbols_spec2 nfa current nfa.alphabet visited
    exact ih (h4 h)

theorem subsetsLoop_complete (nfa : Automaton) :
    ∀ (queue : List (List String)) (visited : List (String × List String)),
      (∀ p ∈ visited, p.2 ∈ queue ∨ ∀ a ∈ nfa.alphabet, nextSubset nfa p.2 a ≠ [] →
        generateSubsetStateName (nextSubset nfa p.2 a) ∈ visited.map Prod.fst) →
      ∀ p ∈ subsetsLoop nfa queue visited, ∀ a ∈ nfa.alphabet,
        nextSubset nfa p.2 a ≠ [] →
          generateSubsetStateName (nextSubset nfa p.2 a) ∈
            (subsetsLoop nfa queue visited).map Prod.fst := by
  intro queue visited
  induction queue, visited using subsetsLoop.induct nfa with
  | case1 visited =>
    intro hv p hp a ha hne
    rw [subsetsLoop] at hp ⊢
    rcases hv p hp with h | h
    · exact absurd h (List.not_mem_nil _)
    · exact h a ha hne
  | case2 visited current rest ih =>
    intro hv p hp a ha hne
    rw [subsetsLoop] at hp ⊢
    refine ih ?_ p hp a ha hne
    obtain ⟨extra, h1, h2, h3, -⟩ := processSymbols_spec2 nfa current nfa.alphabet visited
    rw [h1]
    intro q hq
    rcases List.mem_append.mp hq with hq | hq
    · rcases hv q hq with hql | hqr
      · rcases List.mem_cons.mp hql with hqc | hql
        · right
          intro b hb hbne
          rw [hqc] at hbne ⊢
          have hk := processSymbols_complete nfa current nfa.alphabet visited b hb hbne
          rw [h1] at hk
          exact hk
        · left
          exact List.mem_append.mpr (Or.inl hql)
      · right
        intro b hb hbne
        rw [List.map_append]
        exact List.mem_append.mpr (Or.inl (hqr b hb hbne))
    · left
      refine List.mem_append.mpr (Or.inr ?_)
      rw [h2]
      exact List.mem_map.mpr ⟨q, hq, rfl⟩

theorem closSet_idem (A : Automaton) (S : Set String) :
    closSet A (closSet A S) = closSet A S := by
  ext x
  simp only [closSet, Set.mem_setOf_eq]
  constructor
  · rintro ⟨s, ⟨s', hs', h1⟩, h2⟩
    exact ⟨s', hs', h1.trans h2⟩
  · intro hx
    exact ⟨x, hx, Relation.ReflTransGen.refl⟩

theorem closed_of_closure (A : Automaton) (X : List String) :
    closSet A (listSet (computeEpsilonClosure A X)) = listSet (computeEpsilonClosure A X) := by
  rw [listSet_computeEpsilonClosure, closSet_idem]

theorem createStateSubsets_start_mem (nfa : Automaton) :
    (generateSubsetStateName (computeEpsilonClosure nfa nfa.startStates),
      computeEpsilonClosure nfa nfa.startStates) ∈ createStateSubsets nfa := by
  rw [createStateSubsets]
  exact subsetsLoop_mono nfa _ _ _ (List.mem_singleton.mpr rfl)

theorem createStateSubsets_inv (nfa : Automaton) (hne : nfa.startStates ≠ []) :
    ∀ p ∈ createStateSubsets nfa,
      p.1 = generateSubsetStateName p.2 ∧ p.2 ≠ [] ∧
      (∀ x ∈ p.2, x ∈ subsetUniv nfa) ∧
      closSet nfa (listSet p.2) = listSet p.2 := by
  rw [createStateSubsets]
  refine subsetsLoop_entries nfa _ ?_ _ _ ?_
  · intro current a hna
    refine ⟨rfl, hna, fun x hx => nextSubset_subset_univ x hx, ?_⟩
    rw [nextSubset]
    exact closed_of_closure nfa _
  · intro p hp
    rw [List.mem_singleton] at hp
    subst hp
    refine ⟨rfl, ?_, ?_, closed_of_closure nfa _⟩
    · intro hnil
      obtain ⟨s, hs⟩ := List.exists_mem_of_ne_nil _ hne
      have hmem := computeEpsilonClosure_inflationary nfa nfa.startStates s hs
      have hnil' : computeEpsilonClosure nfa nfa.startStates = [] := hnil
      rw [hnil'] at hmem
      exact List.not_mem_nil s hmem
    · intro x hx
      rcases computeEpsilonClosure_subset_univ x hx with h | ⟨t, ht, hto⟩
      · exact List.mem_append.mpr (Or.inl h)
      · simp only [subsetUniv, List.mem_append, List.mem_flatMap]
        exact Or.inr ⟨t, ht, hto⟩

theorem createStateSubsets_keys_nodup (nfa : Automaton) :
    ((createStateSubsets nfa).map Prod.fst).Nodup := by
  rw [createStateSubsets]
  exact subsetsLoop_keys_nodup nfa _ _ (by simp)

theorem createStateSubsets_closed (nfa : Automaton) :
    ∀ p ∈ createStateSubsets nfa, ∀ a ∈ nfa.alphabet, nextSubset nfa p.2 a ≠ [] →
      generateSubsetStateName (nextSubset nfa p.2 a) ∈
        (createStateSubsets nfa).map Prod.fst := by
  rw [createStateSubsets]
  refine subsetsLoop_complete nfa _ _ ?_
  intro p hp
  rw [List.mem_singleton] at hp
  subst hp
  left
  exact List.mem_singleton.mpr rfl

theorem mem_createDFATransitions {nfa : Automaton}
    {subsets : List (String × List String)} {t : Transition} :
    t ∈ createDFATransitions nfa subsets ↔
      ∃ p ∈ subsets, ∃ a ∈ nfa.alphabet,
        generateSubsetStateName (nextSubset nfa p.2 a) ∈ subsets.map Prod.fst ∧
        nextSubset nfa p.2 a ≠ [] ∧
        t = ⟨p.1, a, [generateSubsetStateName (nextSubset nfa p.2 a)]⟩ := by
  rw [createDFATransitions]
  simp only [List.mem_flatMap]
  constructor
  · rintro ⟨p, hp, a, ha, ht⟩
    by_cases hcond : ((subsets.map Prod.fst).contains
        (generateSubsetStateName (nextSubset nfa p.2 a)) &&
        !(nextSubset nfa p.2 a).isEmpty) = true
    · rw [if_pos hcond] at ht
      obtain ⟨h1, h2⟩ := (Bool.and_eq_true _ _).mp hcond
      rw [List.mem_singleton] at ht
      refine ⟨p, hp, a, ha, List.elem_iff.mp h1, ?_, ht⟩
      intro hnil
      rw [hnil] at h2
      simp at h2
    · rw [if_neg hcond] at ht
      exact absurd ht (List.not_mem_nil t)
  · rintro ⟨p, hp, a, ha, hmem, hnext, rfl⟩
    have hcond : ((subsets.map Prod.fst).contains
        (generateSubsetStateName (nextSubset nfa p.2 a)) &&
        !(nextSubset nfa p.2 a).isEmpty) = true := by
      rw [Bool.and_eq_true]
      refine ⟨List.elem_eq_true_of_mem hmem, ?_⟩
      rw [Bool.eq_false_iff.mpr (fun h => hnext (List.isEmpty_iff.mp h))]
      rfl
    refine ⟨p, hp, a, ha, ?_⟩
    rw [if_pos hcond]
    exact List.mem_singleton.mpr rfl

theorem generateSubsetStateName_ne_empty (l : List String) :
    generateSubsetStateName l ≠ "" := by
  rw [generateSubsetStateName]
  by_cases h : joinComma (List.insertionSort strDataLe l.dedup) = ""
  · rw [if_pos h]
    decide
  · rw [if_neg h]
    exact h

/-- The DFA configuration `#convertDirectly` hands to `new Automaton(...)`
always validates, so `convert` succeeds on every well-formed NFA and returns
the constructed automaton (whose stored sets equal the configuration lists,
which are already duplicate-free). -/
theorem convert_ok {nfa : Automaton} (hWF : nfa.WF) (hNFA : nfa.isNFA = true) :
    convert nfa = Except.ok
      ⟨(createStateSubsets nfa).map Prod.fst,
        nfa.alphabet,
        createDFATransitions nfa (createStateSubsets nfa),
        [generateSubsetStateName (computeEpsilonClosure nfa nfa.startStates)],
        ((createStateSubsets nfa).filter fun p =>
          p.2.any fun s => nfa.acceptStates.contains s).map Prod.fst⟩ := by
  have hinv := createStateSubsets_inv nfa hWF.start_ne
  have hkeysnd := createStateSubsets_keys_nodup nfa
  have hstartkey : generateSubsetStateName (computeEpsilonClosure nfa nfa.startStates) ∈
      (createStateSubsets nfa).map Prod.fst :=
    List.mem_map.mpr ⟨_, createStateSubsets_start_mem nfa, rfl⟩
  have hkeystr : ∀ k ∈ (createStateSubsets nfa).map Prod.fst, k ≠ "" := by
    intro k hk
    obtain ⟨p, hp, rfl⟩ := List.mem_map.mp hk
    rw [(hinv p hp).1]
    exact generateSubsetStateName_ne_empty _
  have hval : Validator.validate
      ⟨(createStateSubsets nfa).map Prod.fst,
        nfa.alphabet,
        createDFATransitions nfa (createStateSubsets nfa),
        [generateSubsetStateName (computeEpsilonClosure nfa nfa.startStates)],
        ((createStateSubsets nfa).filter fun p =>
          p.2.any fun s => nfa.acceptStates.contains s).map Prod.fst⟩ = Except.ok () := by
    rw [Validator.validate_ok]
    refine ⟨?_, ?_, ?_, ?_, ?_, ?_⟩
    · rw [Validator.states_ok]
      refine ⟨?_, hkeystr, hkeysnd⟩
      intro hnil
      have hnil' : (createStateSubsets nfa).map Prod.fst = [] := hnil
      rw [hnil'] at hstartkey
      exact List.not_mem_nil _ hstartkey
    · rw [Validator.alphabet_ok]
      exact ⟨hWF.alphabet_ne, hWF.alphabet_str, hWF.alphabet_nodup⟩
    · rw [Validator.transitions_ok]
      intro t ht
      obtain ⟨p, hp, a, ha, hmem, hnext, rfl⟩ := mem_createDFATransitions.mp ht
      rw [Validator.isTransition_iff]
      refine ⟨?_, by simp, ?_, by simp⟩
      · rw [(hinv p hp).1]
        exact generateSubsetStateName_ne_empty _
      · intro dd hd
        rw [List.mem_singleton] at hd
        subst hd
        exact generateSubsetStateName_ne_empty _
    · rw [Validator.stateReferences, stateReferencesLoop_ok]
      intro t ht
      obtain ⟨p, hp, a, ha, hmem, hnext, rfl⟩ := mem_createDFATransitions.mp ht
      refine ⟨?_, ?_, ?_⟩
      · rw [Validator.isTransition_iff]
        refine ⟨?_, by simp, ?_, by simp⟩
        · rw [(hinv p hp).1]
          exact generateSubsetStateName_ne_empty _
        · intro dd hd
          rw [List.mem_singleton] at hd
          subst hd
          exact generateSubsetStateName_ne_empty _
      · exact List.mem_map.mpr ⟨p, hp, rfl⟩
      · intro dd hd
        rw [List.mem_singleton] at hd
        subst hd
        exact hmem
    · rw [Validator.startAndAcceptStates_ok]
      refine ⟨by simp, ?_, ?_⟩
      · intro x hx
        rw [List.mem_singleton] at hx
        subst hx
        exact ⟨generateSubsetStateName_ne_empty _, hstartkey⟩
      · intro x hx
        obtain ⟨p, hp, rfl⟩ := List.mem_map.mp hx
        have hp' : p ∈ createStateSubsets nfa := List.mem_of_mem_filter hp
        refine ⟨?_, List.mem_map.mpr ⟨p, hp', rfl⟩⟩
        rw [(hinv p hp').1]
        exact generateSubsetStateName_ne_empty _
    · rw [Validator.validateTransitionSymbols_ok]
      intro t ht
      obtain ⟨p, hp, a, ha, hmem, hnext, rfl⟩ := mem_createDFATransitions.mp ht
      exact Or.inr ha
  rw [convert, if_pos hNFA, Automaton.create, hval]
  have haccnd : (((createStateSubsets nfa).filter fun p =>
      p.2.any fun s => nfa.acceptStates.contains s).map Prod.fst).Nodup :=
    List.Nodup.sublist (List.Sublist.map Prod.fst (List.filter_sublist _)) hkeysnd
  have hred : ((Except.ok () : Except Err Unit) >>= fun _ =>
      (pure ⟨((createStateSubsets nfa).map Prod.fst).dedup,
        nfa.alphabet.dedup,
        createDFATransitions nfa (createStateSubsets nfa),
        [generateSubsetStateName (computeEpsilonClosure nfa nfa.startStates)].dedup,
        (((createStateSubsets nfa).filter fun p =>
          p.2.any fun s => nfa.acceptStates.contains s).map Prod.fst).dedup⟩ :
        Except Err Automaton)) =
      Except.ok ⟨((createStateSubsets nfa).map Prod.fst).dedup,
        nfa.alphabet.dedup,
        createDFATransitions nfa (createStateSubsets nfa),
        [generateSubsetStateName (computeEpsilonClosure nfa nfa.startStates)].dedup,
        (((createStateSubsets nfa).filter fun p =>
          p.2.any fun s => nfa.acceptStates.contains s).map Prod.fst).dedup⟩ := rfl
  rw [hred, List.dedup_eq_self.mpr hkeysnd, List.dedup_eq_self.mpr hWF.alphabet_nodup,
    List.dedup_eq_self.mpr (List.nodup_singleton _), List.dedup_eq_self.mpr haccnd]

/-! ## Claim theorems: conversion (C3, C2) -/

/-- A small well-formed NFA: `q0 --ε--> q1 --b--> q2`, start `q0`, accept
`q2` (the spec's scenario C). -/
def egC : Automaton := ⟨["q0", "q1", "q2"], ["b"],
  [⟨"q0", "ε", ["q1"]⟩, ⟨"q1", "b", ["q2"]⟩], ["q0"], ["q2"]⟩

/-- C3: `convert` raises exactly when `isNFA()` is false, the raised error is
the `ConversionError`, and on a well-formed NFA it returns an automaton (no
error); when it raises, no automaton is returned (the `Except` result carries
either the error or the value, never both). -/
theorem C3_convert_error_iff (A : Automaton) (hWF : A.WF) :
    ((∃ e, convert A = Except.error e) ↔ A.isNFA = false) ∧
    (∀ e, convert A = Except.error e →
      e = Err.conversion "Input automaton is not an NFA.") ∧
    ((∃ D, convert A = Except.ok D) ↔ A.isNFA = true) := by
  by_cases h : A.isNFA = true
  · have hok := convert_ok hWF h
    refine ⟨iff_of_false ?_ (by simp [h]), ?_, iff_of_true ⟨_, hok⟩ h⟩
    · rintro ⟨e, he⟩
      rw [hok] at he
      exact Except.noConfusion he
    · intro e he
      rw [hok] at he
      exact absurd he (fun hh => Except.noConfusion hh)
  · have h' : A.isNFA = false := Bool.eq_false_iff.mpr h
    rw [convert, if_neg h]
    refine ⟨iff_of_true ⟨_, rfl⟩ h', ?_, iff_of_false ?_ (by simp [h'])⟩
    · intro e he
      injection he with h''
      exact h''.symm
    · rintro ⟨D, hD⟩
      exact Except.noConfusion hD

theorem C3_convert_error_iff_witness :
    (∃ D, convert egC = Except.ok D) ∧ egC.isNFA = true :=
  ⟨(C3_convert_error_iff egC (Automaton.create_wf
      (c := ⟨["q0", "q1", "q2"], ["b"], [⟨"q0", "ε", ["q1"]⟩, ⟨"q1", "b", ["q2"]⟩],
        ["q0"], ["q2"]⟩) (by decide))).2.2.mpr (by decide), by decide⟩

theorem C10_closure_total_inflationary_witness :
    ("q0" ∈ (["q0", "q2"] : List String)) ∧
      "q0" ∈ computeEpsilonClosure egC ["q0", "q2"] :=
  ⟨by decide, C10_closure_total_inflationary egC ["q0", "q2"] "q0" (by decide)⟩

/-- C2 (amended): on a well-formed NFA whose alphabet does not contain the
epsilon marker, `convert` succeeds and its result satisfies `isDFA()`.  (When
the alphabet does contain the marker the result can carry epsilon-labelled
transitions and fail `isDFA()`; see the counterexample.) -/
theorem C2_amended (N : Automaton) (hWF : N.WF) (hNFA : N.isNFA = true)
    (heps : EPSILON ∉ N.alphabet) :
    ∃ D, convert N = Except.ok D ∧ D.isDFA = true := by
  refine ⟨_, convert_ok hWF hNFA, ?_⟩
  rw [Automaton.isDFA]
  have hstart : ((([generateSubsetStateName (computeEpsilonClosure N N.startStates)] :
      List String).dedup.length != 1) = false) := by
    rw [List.dedup_eq_self.mpr (List.nodup_singleton _)]
    rfl
  rw [if_neg (by rw [hstart]; exact fun hh => Bool.noConfusion hh)]
  rw [List.all_eq_true]
  intro t ht
  obtain ⟨p, hp, a, ha, hmem, hnext, rfl⟩ := mem_createDFATransitions.mp ht
  rw [Bool.and_eq_true]
  refine ⟨?_, rfl⟩
  have hne : (a == EPSILON) = false := by
    rw [beq_eq_false_iff_ne]
    intro he
    exact heps (he ▸ ha)
  rw [hne]
  rfl

theorem C2_amended_witness :
    ∃ D, convert egC = Except.ok D ∧ D.isDFA = true :=
  C2_amended egC (Automaton.create_wf
    (c := ⟨["q0", "q1", "q2"], ["b"], [⟨"q0", "ε", ["q1"]⟩, ⟨"q1", "b", ["q2"]⟩],
      ["q0"], ["q2"]⟩) (by decide)) (by decide) (by decide)

/-- The C2 counterexample NFA: the epsilon marker is a member of its alphabet
and also labels a transition. -/
def NepsC2 : Automaton := ⟨["q0", "q1"], ["a", "ε"],
  [⟨"q0", "ε", ["q1"]⟩], ["q0"], []⟩

/-- C2 counterexample: a constructed NFA whose alphabet contains the epsilon
marker converts successfully, but the resulting automaton carries an
epsilon-labelled transition and does NOT satisfy `isDFA()`. -/
theorem C2_counterexample :
    Automaton.create ⟨["q0", "q1"], ["a", "ε"], [⟨"q0", "ε", ["q1"]⟩], ["q0"], []⟩ =
      Except.ok NepsC2 ∧
    NepsC2.isNFA = true ∧ EPSILON ∈ NepsC2.alphabet ∧
    ∃ D, convert NepsC2 = Except.ok D ∧ D.isDFA = false := by
  have hWF : NepsC2.WF := Automaton.create_wf
    (c := ⟨["q0", "q1"], ["a", "ε"], [⟨"q0", "ε", ["q1"]⟩], ["q0"], []⟩) (by decide)
  refine ⟨by decide, by decide, by decide, _, convert_ok hWF (by decide), ?_⟩
  have hS0 : computeEpsilonClosure NepsC2 NepsC2.startStates = ["q0", "q1"] := by
    simp +decide [NepsC2, computeEpsilonClosure, closureLoop, newDests, epsDests, EPSILON]
  have hnext : nextSubset NepsC2 ["q0", "q1"] EPSILON = ["q1"] := by
    simp +decide [NepsC2, nextSubset, computeEpsilonClosure, closureLoop, newDests,
      epsDests, EPSILON]
  have hpmem : (generateSubsetStateName ["q0", "q1"], ["q0", "q1"]) ∈
      createStateSubsets NepsC2 := by
    have hsm := createStateSubsets_start_mem NepsC2
    rw [hS0] at hsm
    exact hsm
  have hne : nextSubset NepsC2
      ((generateSubsetStateName ["q0", "q1"], ["q0", "q1"]) : String × List String).2
        EPSILON ≠ [] := by
    show nextSubset NepsC2 ["q0", "q1"] EPSILON ≠ []
    rw [hnext]
    exact fun hh => List.noConfusion hh
  have hkey := createStateSubsets_closed NepsC2 _ hpmem EPSILON (by decide) hne
  have htrans : (⟨(generateSubsetStateName ["q0", "q1"], ["q0", "q1"]).1, EPSILON,
      [generateSubsetStateName (nextSubset NepsC2
        ((generateSubsetStateName ["q0", "q1"], ["q0", "q1"]) : String × List String).2
        EPSILON)]⟩ : Transition) ∈
      createDFATransitions NepsC2 (createStateSubsets NepsC2) :=
    mem_createDFATransitions.mpr ⟨_, hpmem, EPSILON, by decide, hkey, hne, rfl⟩
  apply Bool.eq_false_iff.mpr
  intro hDFA
  rw [Automaton.isDFA] at hDFA
  by_cases hc : ((([generateSubsetStateName (computeEpsilonClosure NepsC2 NepsC2.startStates)] :
      List String).dedup.length != 1) = true)
  · rw [if_pos hc] at hDFA
    exact Bool.noConfusion hDFA
  · rw [if_neg hc] at hDFA
    have hall := List.all_eq_true.mp hDFA _ htrans
    rw [Bool.and_eq_true] at hall
    simpa using hall.1

/-! ## Claim theorems: shape of the produced DFA (C9) -/

theorem generateSubsetStateName_ne_sentinel {l : List String}
    (hne : l ≠ []) (hstr : ∀ x ∈ l, x ≠ "") (hsen : ∀ x ∈ l, x ≠ "∅") :
    generateSubsetStateName l ≠ "∅" := by
  rw [generateSubsetStateName]
  cases hsort : List.insertionSort strDataLe l.dedup with
  | nil =>
    exfalso
    obtain ⟨x, hx⟩ := List.exists_mem_of_ne_nil _ hne
    have hx' : x ∈ List.insertionSort strDataLe l.dedup :=
      (List.perm_insertionSort _ _).mem_iff.mpr (List.mem_dedup.mpr hx)
    rw [hsort] at hx'
    exact List.not_mem_nil x hx'
  | cons a rest =>
    have ha : a ∈ l := by
      have hmem : a ∈ List.insertionSort strDataLe l.dedup := by
        rw [hsort]
        exact List.mem_cons_self _ _
      exact List.mem_dedup.mp ((List.perm_insertionSort _ _).mem_iff.mp hmem)
    cases rest with
    | nil =>
      rw [joinComma, if_neg (hstr a ha)]
      exact hsen a ha
    | cons b rest2 =>
      have hjoin : joinComma (a :: b :: rest2) = a ++ ", " ++ joinComma (b :: rest2) := rfl
      have hlen2 : (", " : String).length = 2 := rfl
      have hlen1 : ("∅" : String).length = 1 := rfl
      rw [hjoin]
      have hne2 : a ++ ", " ++ joinComma (b :: rest2) ≠ "∅" := by
        intro h
        have hlen := congrArg String.length h
        rw [String.length_append, String.length_append, hlen2, hlen1] at hlen
        omega
      rw [if_neg ?_]
      · exact hne2
      · intro h
        have hlen := congrArg String.length h
        rw [String.length_append, String.length_append, hlen2] at hlen
        have : ("" : String).length = 0 := rfl
        rw [this] at hlen
        omega

theorem flatMapIfSingleton {α β : Type} (l : List α) (c : α → Bool) (f : α → β) :
    (l.flatMap fun x => if c x then [f x] else []) = (l.filter c).map f := by
  induction l with
  | nil => rfl
  | cons x rest ih =>
    rw [List.flatMap_cons, List.filter_cons]
    by_cases h : c x
    · rw [if_pos h, if_pos h, List.map_cons, ih]
      rfl
    · rw [if_neg h, if_neg h, ih]
      rfl

theorem createDFATransitions_eq (nfa : Automaton)
    (subsets : List (String × List String)) :
    createDFATransitions nfa subsets = subsets.flatMap fun p =>
      (nfa.alphabet.filter fun a =>
        (subsets.map Prod.fst).contains (generateSubsetStateName (nextSubset nfa p.2 a)) &&
        !(nextSubset nfa p.2 a).isEmpty).map
        fun a => ⟨p.1, a, [generateSubsetStateName (nextSubset nfa p.2 a)]⟩ := by
  rw [createDFATransitions]
  congr 1
  funext p
  exact flatMapIfSingleton _ _ _

theorem perPairAux (alphabet : List String) (halpha : alphabet.Nodup)
    (c : (String × List String) → String → Bool)
    (g : (String × List String) → String → List String) :
    ∀ (subsets : List (String × List String)), (subsets.map Prod.fst).Nodup →
      ∀ s a, ((subsets.flatMap fun p => (alphabet.filter (c p)).map
          fun x => (⟨p.1, x, g p x⟩ : Transition)).filter
        fun t => t.from' == s && t.input == a).length ≤ 1 := by
  intro subsets
  induction subsets with
  | nil =>
    intro _ s a
    simp
  | cons p rest ih =>
    intro hnd s a
    rw [List.map_cons, List.nodup_cons] at hnd
    obtain ⟨hpk, hnd'⟩ := hnd
    rw [List.flatMap_cons, List.filter_append, List.length_append]
    by_cases hps : p.1 = s
    · have hrest : ((rest.flatMap fun q => (alphabet.filter (c q)).map
          fun x => (⟨q.1, x, g q x⟩ : Transition)).filter
          fun t => t.from' == s && t.input == a) = [] := by
        rw [List.filter_eq_nil_iff]
        intro t ht
        obtain ⟨q, hq, ht⟩ := List.mem_flatMap.mp ht
        obtain ⟨x, -, rfl⟩ := List.mem_map.mp ht
        intro hpred
        obtain ⟨h1, -⟩ := (Bool.and_eq_true _ _).mp hpred
        have : q.1 = s := beq_iff_eq.mp h1
        rw [← hps] at this
        exact hpk (this ▸ List.mem_map.mpr ⟨q, hq, rfl⟩)
      rw [hrest]
      simp only [List.length_nil, Nat.add_zero]
      rw [List.filter_map, List.length_map, ← List.countP_eq_length_filter]
      refine le_trans (List.countP_mono_left (q := fun x => x == a) ?_) ?_
      · intro x hx hpx
        exact ((Bool.and_eq_true _ _).mp hpx).2
      · have hcnt : List.countP (fun x => x == a) (alphabet.filter (c p)) =
            (alphabet.filter (c p)).count a := rfl
        rw [hcnt]
        exact List.nodup_iff_count_le_one.mp (halpha.filter _) a
    · have hinner : (((alphabet.filter (c p)).map
          fun x => (⟨p.1, x, g p x⟩ : Transition)).filter
          fun t => t.from' == s && t.input == a) = [] := by
        rw [List.filter_eq_nil_iff]
        intro t ht
        obtain ⟨x, -, rfl⟩ := List.mem_map.mp ht
        intro hpred
        obtain ⟨h1, -⟩ := (Bool.and_eq_true _ _).mp hpred
        exact hps (beq_iff_eq.mp h1)
      rw [hinner]
      simp only [List.length_nil, Nat.zero_add]
      exact ih hnd' s a

theorem createDFATransitions_per_pair {nfa : Automaton}
    {subsets : List (String × List String)}
    (hkeys : (subsets.map Prod.fst).Nodup) (halpha : nfa.alphabet.Nodup)
    (s a : String) :
    ((createDFATransitions nfa subsets).filter
      fun t => t.from' == s && t.input == a).length ≤ 1 := by
  rw [createDFATransitions_eq]
  exact perPairAux nfa.alphabet halpha _ _ subsets hkeys s a

/-- C9 (amended): the converted DFA's transitions exist only for pairs whose
closure-of-move is non-empty and point at its canonical name; every DFA state
is the canonical name of a non-empty reachable subset of the NFA's states;
the sentinel name `"∅"` never appears among the DFA states PROVIDED no source
state is itself called `"∅"` (the unamended claim fails there, see the
counterexample); and every state has at most one outgoing transition per
symbol. -/
theorem C9_amended (N : Automaton) (hWF : N.WF) (hNFA : N.isNFA = true)
    (hsent : "∅" ∉ N.states) :
    ∀ D, convert N = Except.ok D →
      (∀ t ∈ D.transitions, ∃ p ∈ createStateSubsets N,
        t.from' = p.1 ∧ t.input ∈ N.alphabet ∧ nextSubset N p.2 t.input ≠ [] ∧
        t.to' = [generateSubsetStateName (nextSubset N p.2 t.input)]) ∧
      (∀ s ∈ D.states, ∃ p ∈ createStateSubsets N,
        s = generateSubsetStateName p.2 ∧ p.2 ≠ [] ∧ ∀ x ∈ p.2, x ∈ N.states) ∧
      "∅" ∉ D.states ∧
      (∀ s a, (D.transitions.filter fun t => t.from' == s && t.input == a).length ≤ 1) := by
  intro D hD
  rw [convert_ok hWF hNFA] at hD
  injection hD with hD
  subst hD
  have hinv := createStateSubsets_inv N hWF.start_ne
  have huniv_states : ∀ x ∈ subsetUniv N, x ∈ N.states := by
    intro x hx
    rcases List.mem_append.mp hx with h | h
    · exact hWF.start_mem x h
    · obtain ⟨t, ht, hto⟩ := List.mem_flatMap.mp h
      exact hWF.trans_to_mem t ht x hto
  refine ⟨?_, ?_, ?_, ?_⟩
  · intro t ht
    obtain ⟨p, hp, a, ha, hmem, hnext, rfl⟩ := mem_createDFATransitions.mp ht
    exact ⟨p, hp, rfl, ha, hnext, rfl⟩
  · intro s hs
    obtain ⟨p, hp, rfl⟩ := List.mem_map.mp hs
    obtain ⟨h1, h2, h3, -⟩ := hinv p hp
    exact ⟨p, hp, h1, h2, fun x hx => huniv_states x (h3 x hx)⟩
  · intro hs
    obtain ⟨p, hp, hps⟩ := List.mem_map.mp hs
    obtain ⟨h1, h2, h3, -⟩ := hinv p hp
    refine generateSubsetStateName_ne_sentinel h2 ?_ ?_ (h1.symm.trans hps)
    · intro x hx
      exact hWF.states_str x (huniv_states x (h3 x hx))
    · intro x hx heq
      exact hsent (heq ▸ huniv_states x (h3 x hx))
  · intro s a
    exact createDFATransitions_per_pair (createStateSubsets_keys_nodup N)
      hWF.alphabet_nodup s a

theorem C9_amended_witness :
    "∅" ∉ (⟨(createStateSubsets egC).map Prod.fst, egC.alphabet,
      createDFATransitions egC (createStateSubsets egC),
      [generateSubsetStateName (computeEpsilonClosure egC egC.startStates)],
      ((createStateSubsets egC).filter fun p =>
        p.2.any fun s => egC.acceptStates.contains s).map Prod.fst⟩ : Automaton).states := by
  have hWF : egC.WF := Automaton.create_wf
    (c := ⟨["q0", "q1", "q2"], ["b"], [⟨"q0", "ε", ["q1"]⟩, ⟨"q1", "b", ["q2"]⟩],
      ["q0"], ["q2"]⟩) (by decide)
  exact (C9_amended egC hWF (by decide) (by decide) _ (convert_ok hWF (by decide))).2.2.1

/-- The C9 counterexample NFA: a source state literally named `"∅"`. -/
def NsentC9 : Automaton := ⟨["∅", "x"], ["a"],
  [⟨"∅", "a", ["∅", "x"]⟩], ["∅"], []⟩

/-- C9 counterexample: when a source state is itself named `"∅"`, the
sentinel name DOES appear among the converted DFA's states (it is the
canonical name of the non-empty subset containing that state). -/
theorem C9_counterexample :
    Automaton.create ⟨["∅", "x"], ["a"], [⟨"∅", "a", ["∅", "x"]⟩], ["∅"], []⟩ =
      Except.ok NsentC9 ∧
    NsentC9.isNFA = true ∧
    ∃ D, convert NsentC9 = Except.ok D ∧ "∅" ∈ D.states := by
  have hWF : NsentC9.WF := Automaton.create_wf
    (c := ⟨["∅", "x"], ["a"], [⟨"∅", "a", ["∅", "x"]⟩], ["∅"], []⟩) (by decide)
  refine ⟨by decide, by decide, _, convert_ok hWF (by decide), ?_⟩
  have hS0 : computeEpsilonClosure NsentC9 NsentC9.startStates = ["∅"] := by
    simp +decide [NsentC9, computeEpsilonClosure, closureLoop, newDests, epsDests, EPSILON]
  have hsm := createStateSubsets_start_mem NsentC9
  rw [hS0] at hsm
  have hname : generateSubsetStateName ["∅"] = "∅" := by decide
  rw [hname] at hsm
  show "∅" ∈ (createStateSubsets NsentC9).map Prod.fst
  exact List.mem_map.mpr ⟨_, hsm, rfl⟩

/-! ## Language equivalence of the subset construction (C1) -/

/-- The DFA that `#convertDirectly` builds for `nfa` (the value inside the
`Except.ok` result of `convert`). -/
def dfaOf (N : Automaton) : Automaton :=
  ⟨(createStateSubsets N).map Prod.fst, N.alphabet,
    createDFATransitions N (createStateSubsets N),
    [generateSubsetStateName (computeEpsilonClosure N N.startStates)],
    ((createStateSubsets N).filter fun p =>
      p.2.any fun s => N.acceptStates.contains s).map Prod.fst⟩

theorem convert_eq_dfaOf {N : Automaton} (hWF : N.WF) (hNFA : N.isNFA = true) :
    convert N = Except.ok (dfaOf N) :=
  convert_ok hWF hNFA

/-- Injectivity of the canonical subset naming over the subsets of the NFA's
reachable-state universe: two sub-lists of the universe with the same name
have the same members.  This is the no-collision condition the claim needs
(state ids embedding the `", "` delimiter can defeat it). -/
def NameInjective (N : Automaton) : Prop :=
  ∀ s ∈ (subsetUniv N).sublists, ∀ t ∈ (subsetUniv N).sublists,
    generateSubsetStateName s = generateSubsetStateName t →
    (∀ x ∈ s, x ∈ t) ∧ (∀ x ∈ t, x ∈ s)

instance (N : Automaton) : Decidable (NameInjective N) := by
  unfold NameInjective
  infer_instance

theorem nameInj_apply {N : Automaton} (hinj : NameInjective N) {S1 S2 : List String}
    (h1 : ∀ x ∈ S1, x ∈ subsetUniv N) (h2 : ∀ x ∈ S2, x ∈ subsetUniv N)
    (hname : generateSubsetStateName S1 = generateSubsetStateName S2) :
    ∀ x, x ∈ S1 ↔ x ∈ S2 := by
  have hu1 : ∀ x, x ∈ (subsetUniv N).filter (fun y => S1.contains y) ↔ x ∈ S1 := by
    intro x
    rw [List.mem_filter]
    exact ⟨fun h => List.elem_iff.mp h.2,
      fun hx => ⟨h1 x hx, List.elem_eq_true_of_mem hx⟩⟩
  have hu2 : ∀ x, x ∈ (subsetUniv N).filter (fun y => S2.contains y) ↔ x ∈ S2 := by
    intro x
    rw [List.mem_filter]
    exact ⟨fun h => List.elem_iff.mp h.2,
      fun hx => ⟨h2 x hx, List.elem_eq_true_of_mem hx⟩⟩
  have hn1 : generateSubsetStateName ((subsetUniv N).filter fun y => S1.contains y) =
      generateSubsetStateName S1 := generateSubsetStateName_eq_of_mem_iff hu1
  have hn2 : generateSubsetStateName ((subsetUniv N).filter fun y => S2.contains y) =
      generateSubsetStateName S2 := generateSubsetStateName_eq_of_mem_iff hu2
  have hkey : generateSubsetStateName ((subsetUniv N).filter fun y => S1.contains y) =
      generateSubsetStateName ((subsetUniv N).filter fun y => S2.contains y) :=
    (hn1.trans hname).trans hn2.symm
  obtain ⟨ha, hb⟩ := hinj _ (List.mem_sublists.mpr (List.filter_sublist _))
    _ (List.mem_sublists.mpr (List.filter_sublist _)) hkey
  intro x
  constructor
  · intro hx
    exact (hu2 x).mp (ha x ((hu1 x).mpr hx))
  · intro hx
    exact (hu1 x).mp (hb x ((hu2 x).mpr hx))

theorem closSet_mono {A : Automaton} {S S' : Set String} (h : S ⊆ S') :
    closSet A S ⊆ closSet A S' := by
  rintro x ⟨s, hs, hr⟩
  exact ⟨s, h hs, hr⟩

theorem moveSet_mono {A : Automaton} {S S' : Set String} {a : String} (h : S ⊆ S') :
    moveSet A S a ⊆ moveSet A S' a := by
  rintro x ⟨s, hs, t, ht, h1, h2, h3⟩
  exact ⟨s, h hs, t, ht, h1, h2, h3⟩

theorem closSet_inflationary {A : Automaton} {S : Set String} : S ⊆ closSet A S :=
  fun x hx => ⟨x, hx, Relation.ReflTransGen.refl⟩

theorem moveSet_eps_subset {A : Automaton} {S : Set String}
    (hS : closSet A S = S) : moveSet A S EPSILON ⊆ S := by
  rintro x ⟨s, hs, t, ht, h1, h2, h3⟩
  rw [← hS]
  exact ⟨s, hs, Relation.ReflTransGen.tail Relation.ReflTransGen.refl ⟨t, ht, h1, h2, h3⟩⟩

/-- The semantics of the converter's per-(subset, symbol) move. -/
theorem listSet_nextSubset {N : Automaton} {cur : List String} {a : String} :
    listSet (nextSubset N cur a) = closSet N (moveSet N (listSet cur) a) := by
  have hmove : listSet (cur.flatMap fun state =>
      (N.transitions.filter fun t => t.from' == state && t.input == a).flatMap
        Transition.to') = moveSet N (listSet cur) a := by
    ext x
    simp only [listSet, Set.mem_setOf_eq, List.mem_flatMap, List.mem_filter, moveSet,
      Bool.and_eq_true, beq_iff_eq]
    constructor
    · rintro ⟨s, hs, t, ⟨ht, h1, h2⟩, hx⟩
      exact ⟨s, hs, t, ht, h1, h2, hx⟩
    · rintro ⟨s, hs, t, ht, h1, h2, hx⟩
      exact ⟨s, hs, t, ⟨ht, h1, h2⟩, hx⟩
  rw [nextSubset, listSet_computeEpsilonClosure, hmove]

/-- The simulation invariant tying the DFA's active set of state names `AD`
to the NFA's active subset `T`: when `T` is empty so is `AD`; otherwise `T`
is itself a visited subset whose name is active, and every active DFA name
denotes a visited subset contained in `T`. -/
def SimInv (N : Automaton) (AD T : Set String) : Prop :=
  (T = ∅ → AD = ∅) ∧
  (T ≠ ∅ → ∃ p ∈ createStateSubsets N, listSet p.2 = T ∧ p.1 ∈ AD) ∧
  (∀ k ∈ AD, ∃ q ∈ createStateSubsets N, k = q.1 ∧ listSet q.2 ⊆ T)

theorem dfa_closSet_entries {N : Automaton} (hWF : N.WF) (hinj : NameInjective N)
    {T₀ : Set String} {X : Set String}
    (hX : ∀ k ∈ X, ∃ q ∈ createStateSubsets N, k = q.1 ∧ listSet q.2 ⊆ T₀) :
    ∀ k ∈ closSet (dfaOf N) X,
      ∃ q ∈ createStateSubsets N, k = q.1 ∧ listSet q.2 ⊆ T₀ := by
  have hinv := createStateSubsets_inv N hWF.start_ne
  rintro k ⟨k₀, hk₀, hreach⟩
  induction hreach with
  | refl => exact hX k₀ hk₀
  | tail hr hstep ih =>
    obtain ⟨q, hq, rfl, hqT⟩ := ih
    obtain ⟨t, ht, hf, hi, hto⟩ := hstep
    obtain ⟨p', hp', b, hb, hmem', hnext', rfl⟩ := mem_createDFATransitions.mp ht
    have hpq : p' = q :=
      List.inj_on_of_nodup_map (createStateSubsets_keys_nodup N) hp' hq hf
    subst hpq
    rw [List.mem_singleton] at hto
    subst hto
    obtain ⟨q'', hq'', hq''eq⟩ := List.mem_map.mp hmem'
    refine ⟨q'', hq'', hq''eq.symm, ?_⟩
    have hset : listSet q''.2 = listSet (nextSubset N p'.2 b) := by
      apply Set.ext
      intro x
      exact nameInj_apply hinj (hinv q'' hq'').2.2.1
        (fun y hy => nextSubset_subset_univ y hy)
        (((hinv q'' hq'').1.symm).trans hq''eq) x
    rw [hset, listSet_nextSubset]
    have hepsb : b = EPSILON := hi
    rw [hepsb]
    have hclosed : closSet N (listSet p'.2) = listSet p'.2 := (hinv p' hp').2.2.2
    calc closSet N (moveSet N (listSet p'.2) EPSILON)
        ⊆ closSet N (listSet p'.2) := closSet_mono (moveSet_eps_subset hclosed)
      _ = listSet p'.2 := hclosed
      _ ⊆ T₀ := hqT

theorem simInv_base {N : Automaton} (hWF : N.WF) (hinj : NameInjective N) :
    SimInv N (closSet (dfaOf N) (listSet (dfaOf N).startStates))
      (closSet N (listSet N.startStates)) := by
  have hT0 : closSet N (listSet N.startStates) =
      listSet (computeEpsilonClosure N N.startStates) :=
    (listSet_computeEpsilonClosure N N.startStates).symm
  have hT0ne : closSet N (listSet N.startStates) ≠ ∅ := by
    rw [hT0]
    intro h
    obtain ⟨s, hs⟩ := List.exists_mem_of_ne_nil _ hWF.start_ne
    exact Set.not_mem_empty s
      (h ▸ computeEpsilonClosure_inflationary N N.startStates s hs)
  have hstartname : generateSubsetStateName (computeEpsilonClosure N N.startStates) ∈
      closSet (dfaOf N) (listSet (dfaOf N).startStates) :=
    closSet_inflationary (List.mem_cons_self _ _)
  refine ⟨fun h => absurd h hT0ne, fun h => ?_, ?_⟩
  · exact ⟨(generateSubsetStateName (computeEpsilonClosure N N.startStates),
      computeEpsilonClosure N N.startStates), createStateSubsets_start_mem N,
      hT0.symm, hstartname⟩
  · refine dfa_closSet_entries hWF hinj ?_
    intro k hk
    have hk' : k = generateSubsetStateName (computeEpsilonClosure N N.startStates) := by
      rcases List.mem_cons.mp hk with h | h
      · exact h
      · exact absurd h (List.not_mem_nil k)
    subst hk'
    exact ⟨(generateSubsetStateName (computeEpsilonClosure N N.startStates),
      computeEpsilonClosure N N.startStates), createStateSubsets_start_mem N,
      rfl, le_of_eq hT0.symm⟩

theorem simInv_step {N : Automaton} (hWF : N.WF) (hinj : NameInjective N)
    {AD T : Set String} {a : String} (ha : a ∈ N.alphabet) (hInv : SimInv N AD T) :
    SimInv N (stepSet (dfaOf N) AD a) (stepSet N T a) := by
  have hinv := createStateSubsets_inv N hWF.start_ne
  by_cases hT : T = ∅
  · subst hT
    rw [hInv.1 rfl, stepSet_empty, stepSet_empty]
    exact ⟨fun _ => rfl, fun h => absurd rfl h,
      fun k hk => absurd hk (Set.not_mem_empty k)⟩
  · obtain ⟨p, hp, hpT, hpAD⟩ := hInv.2.1 hT
    have hclosT : closSet N T = T := by
      rw [← hpT]
      exact (hinv p hp).2.2.2
    have hT' : stepSet N T a = listSet (nextSubset N p.2 a) := by
      rw [stepSet, hclosT, ← hpT, ← listSet_nextSubset]
    have hM : ∀ nm ∈ moveSet (dfaOf N) (closSet (dfaOf N) AD) a,
        ∃ q'' ∈ createStateSubsets N, nm = q''.1 ∧ listSet q''.2 ⊆ stepSet N T a := by
      rintro nm ⟨k, hk, t, ht, hf, hi, hto⟩
      obtain ⟨q, hq, hkq, hqT⟩ := dfa_closSet_entries hWF hinj hInv.2.2 k hk
      obtain ⟨p', hp', b, hb, hmem', hnext', rfl⟩ := mem_createDFATransitions.mp ht
      have hpq : p' = q :=
        List.inj_on_of_nodup_map (createStateSubsets_keys_nodup N) hp' hq (hf.trans hkq)
      subst hpq
      have hba : b = a := hi
      subst hba
      rw [List.mem_singleton] at hto
      subst hto
      obtain ⟨q'', hq'', hq''eq⟩ := List.mem_map.mp hmem'
      refine ⟨q'', hq'', hq''eq.symm, ?_⟩
      have hset : listSet q''.2 = listSet (nextSubset N p'.2 b) := by
        apply Set.ext
        intro x
        exact nameInj_apply hinj (hinv q'' hq'').2.2.1
          (fun y hy => nextSubset_subset_univ y hy)
          (((hinv q'' hq'').1.symm).trans hq''eq) x
      rw [hset, listSet_nextSubset, stepSet, hclosT]
      exact closSet_mono (moveSet_mono hqT)
    by_cases hnil : nextSubset N p.2 a = []
    · have hT'e : stepSet N T a = ∅ := by
        rw [hT', hnil]
        exact listSet_eq_empty_iff.mpr rfl
      have hMe : moveSet (dfaOf N) (closSet (dfaOf N) AD) a = ∅ := by
        rw [Set.eq_empty_iff_forall_not_mem]
        intro nm hnm
        obtain ⟨q'', hq'', -, hsub⟩ := hM nm hnm
        obtain ⟨x, hx⟩ := List.exists_mem_of_ne_nil _ (hinv q'' hq'').2.1
        rw [hT'e] at hsub
        exact Set.not_mem_empty x (hsub hx)
      have hAD'e : stepSet (dfaOf N) AD a = ∅ := by
        rw [stepSet, hMe, closSet_empty]
      rw [hAD'e, hT'e]
      exact ⟨fun _ => rfl, fun h => absurd rfl h,
        fun k hk => absurd hk (Set.not_mem_empty k)⟩
    · have hT'ne : stepSet N T a ≠ ∅ := by
        rw [hT']
        intro h
        exact hnil (listSet_eq_empty_iff.mp h)
      have hkey := createStateSubsets_closed N p hp a ha hnil
      obtain ⟨q', hq', hq'eq⟩ := List.mem_map.mp hkey
      have hq'set : listSet q'.2 = listSet (nextSubset N p.2 a) := by
        apply Set.ext
        intro x
        exact nameInj_apply hinj (hinv q' hq').2.2.1
          (fun y hy => nextSubset_subset_univ y hy)
          (((hinv q' hq').1.symm).trans hq'eq) x
      have htD : (⟨p.1, a, [generateSubsetStateName (nextSubset N p.2 a)]⟩ : Transition) ∈
          (dfaOf N).transitions :=
        mem_createDFATransitions.mpr ⟨p, hp, a, ha, hkey, hnil, rfl⟩
      have hname' : generateSubsetStateName (nextSubset N p.2 a) ∈
          stepSet (dfaOf N) AD a := by
        refine closSet_inflationary ⟨p.1, closSet_inflationary hpAD, _, htD, rfl, rfl, ?_⟩
        exact List.mem_singleton.mpr rfl
      refine ⟨fun h => absurd h hT'ne, fun h => ?_, ?_⟩
      · refine ⟨q', hq', ?_, ?_⟩
        · rw [hq'set, ← hT']
        · rw [hq'eq]
          exact hname'
      · exact dfa_closSet_entries hWF hinj hM

theorem simInv_fold {N : Automaton} (hWF : N.WF) (hinj : NameInjective N) :
    ∀ (w : List String), (∀ a ∈ w, a ∈ N.alphabet) → ∀ {AD T : Set String},
      SimInv N AD T →
      SimInv N (w.foldl (stepSet (dfaOf N)) AD) (w.foldl (stepSet N) T) := by
  intro w
  induction w with
  | nil =>
    intro _ AD T h
    exact h
  | cons a rest ih =>
    intro hw AD T h
    rw [List.foldl_cons, List.foldl_cons]
    exact ih (fun x hx => hw x (List.mem_cons_of_mem _ hx))
      (simInv_step hWF hinj (hw a (List.mem_cons_self _ _)) h)

theorem simInv_accept {N : Automaton} {AD T : Set String}
    (hInv : SimInv N AD T) :
    (∃ k ∈ AD, k ∈ listSet (dfaOf N).acceptStates) ↔
      ∃ x ∈ T, x ∈ listSet N.acceptStates := by
  constructor
  · rintro ⟨k, hkAD, hkacc⟩
    obtain ⟨q, hq, rfl, hqT⟩ := hInv.2.2 k hkAD
    obtain ⟨p, hpf, hpq⟩ := List.mem_map.mp hkacc
    have hp : p ∈ createStateSubsets N := List.mem_of_mem_filter hpf
    have hpqe : p = q :=
      List.inj_on_of_nodup_map (createStateSubsets_keys_nodup N) hp hq hpq
    subst hpqe
    obtain ⟨x, hx2, hxacc⟩ := List.any_eq_true.mp (List.mem_filter.mp hpf).2
    exact ⟨x, hqT hx2, List.elem_iff.mp hxacc⟩
  · rintro ⟨x, hxT, hxacc⟩
    have hTne : T ≠ ∅ := fun h => Set.not_mem_empty x (h ▸ hxT)
    obtain ⟨p, hp, hpT, hpAD⟩ := hInv.2.1 hTne
    refine ⟨p.1, hpAD, ?_⟩
    refine List.mem_map.mpr ⟨p, List.mem_filter.mpr ⟨hp, List.any_eq_true.mpr
      ⟨x, ?_, List.elem_eq_true_of_mem hxacc⟩⟩, rfl⟩
    rw [← hpT] at hxT
    exact hxT

theorem accepts_dfaOf_iff {N : Automaton} (hWF : N.WF) (hinj : NameInjective N)
    {w : List String} (hw : ∀ a ∈ w, a ∈ N.alphabet) :
    Accepts (dfaOf N) w ↔ Accepts N w := by
  rw [Accepts, Accepts, activeSet, activeSet]
  exact simInv_accept (simInv_fold hWF hinj w hw (simInv_base hWF hinj))

/-- C1 (amended): for every well-formed NFA whose canonical subset naming is
collision-free on its reachable-state universe, the subset-construction DFA
accepts exactly the strings the NFA accepts (fast-mode simulation agrees on
every input over the alphabet).  Without the no-collision hypothesis the claim
fails: state ids embedding the `", "` delimiter can alias distinct subsets. -/
theorem C1_amended (N : Automaton) (hWF : N.WF) (hNFA : N.isNFA = true)
    (hinj : NameInjective N) (w : List String) (hw : ∀ a ∈ w, a ∈ N.alphabet) :
    ∀ D, convert N = Except.ok D →
      ∃ b : Bool, simulateFast N w = Except.ok b ∧ simulateFast D w = Except.ok b := by
  intro D hD
  rw [convert_eq_dfaOf hWF hNFA] at hD
  injection hD with hD
  subst hD
  obtain ⟨b, hbN, hbiffN⟩ := simulateFast_ok (A := N) hw
  have hwD : ∀ a ∈ w, a ∈ (dfaOf N).alphabet := hw
  obtain ⟨b', hbD, hbiffD⟩ := simulateFast_ok (A := dfaOf N) hwD
  have hiff : b = true ↔ b' = true := by
    rw [hbiffN, hbiffD]
    exact (accepts_dfaOf_iff hWF hinj hw).symm
  have hbb : b = b' := by
    cases b <;> cases b' <;> simp_all
  rw [← hbb] at hbD
  exact ⟨b, hbN, hbD⟩

theorem C1_amended_witness :
    ∃ b : Bool, simulateFast egC ["b"] = Except.ok b ∧
      simulateFast (dfaOf egC) ["b"] = Except.ok b := by
  have hWF : egC.WF := Automaton.create_wf
    (c := ⟨["q0", "q1", "q2"], ["b"], [⟨"q0", "ε", ["q1"]⟩, ⟨"q1", "b", ["q2"]⟩],
      ["q0"], ["q2"]⟩) (by decide)
  exact C1_amended egC hWF (by decide) (by decide) ["b"] (by decide)
    (dfaOf egC) (convert_eq_dfaOf hWF (by decide))

/-- The C1 counterexample NFA: the state id `"a, b"` embeds the subset-name
delimiter, so the subset `{a, b}` and the singleton `{"a, b"}` share the
canonical name `"a, b"`. -/
def NcolC1 : Automaton := ⟨["s", "a", "b", "a, b"], ["x", "y"],
  [⟨"s", "x", ["a", "b"]⟩, ⟨"s", "y", ["a, b"]⟩], ["s"], ["a"]⟩

/-- C1 counterexample: the claim as stated is false.  On the NFA above and
the in-alphabet input `"y"`, the NFA rejects but the converted DFA accepts —
the BFS conflates the subsets `{a, b}` (accepting, reached on `x`) and
`{"a, b"}` (non-accepting, reached on `y`) under the shared name. -/
theorem C1_counterexample :
    Automaton.create ⟨["s", "a", "b", "a, b"], ["x", "y"],
      [⟨"s", "x", ["a", "b"]⟩, ⟨"s", "y", ["a, b"]⟩], ["s"], ["a"]⟩ =
        Except.ok NcolC1 ∧
    NcolC1.isNFA = true ∧ "y" ∈ NcolC1.alphabet ∧
    ∃ D, convert NcolC1 = Except.ok D ∧
      simulateFast NcolC1 ["y"] = Except.ok false ∧
      simulateFast D ["y"] = Except.ok true := by
  have hWF : NcolC1.WF := Automaton.create_wf
    (c := ⟨["s", "a", "b", "a, b"], ["x", "y"],
      [⟨"s", "x", ["a", "b"]⟩, ⟨"s", "y", ["a, b"]⟩], ["s"], ["a"]⟩) (by decide)
  refine ⟨by decide, by decide, by decide, dfaOf NcolC1,
    convert_eq_dfaOf hWF (by decide), ?_, ?_⟩
  · simp +decide [NcolC1, simulateFast, fastLoop, simulateStep, computeEpsilonClosure,
      closureLoop, newDests, epsDests, EPSILON, Automaton.getTransitions]
  · have hsubsets : createStateSubsets NcolC1 = [("s", ["s"]), ("a, b", ["a", "b"])] := by
      simp +decide [createStateSubsets, subsetsLoop, processSymbols, nextSubset,
        computeEpsilonClosure, closureLoop, newDests, epsDests, EPSILON,
        generateSubsetStateName, joinComma, strDataLe, List.insertionSort,
        List.orderedInsert, NcolC1]
    have hD : dfaOf NcolC1 = ⟨["s", "a, b"], ["x", "y"],
        [⟨"s", "x", ["a, b"]⟩, ⟨"s", "y", ["a, b"]⟩], ["s"], ["a, b"]⟩ := by
      rw [dfaOf, hsubsets]
      simp +decide [createDFATransitions, nextSubset, computeEpsilonClosure, closureLoop,
        newDests, epsDests, EPSILON, generateSubsetStateName, joinComma, strDataLe,
        List.insertionSort, List.orderedInsert, NcolC1]
    rw [hD]
    simp +decide [simulateFast, fastLoop, simulateStep, computeEpsilonClosure,
      closureLoop, newDests, epsDests, EPSILON, Automaton.getTransitions]

end Otomat
